import Mathlib

/-!
# Verification of the XLMate PGN import pipeline

Shallow embedding of `src/backend/modules/chess/src/pgn.rs`: header parsing,
move-text tokenization and replay validation, together with a model of the
external chess rules oracle (the shakmaty crate, treated by the spec as an
opaque capability).  Strings are modelled as `List Char`; the ASCII fragments
of the Rust regex character classes (`\w`, `\s`, `\d`) are used, which covers
every input the claims touch.
-/

set_option maxHeartbeats 1000000

namespace XLMate

/-! ## Definitions: the PGN pipeline and the chess oracle model -/

/-- Strings are modelled as lists of characters (byte offsets of the Rust
`&str` coincide with character offsets on the ASCII inputs considered). -/
abbrev Str := List Char

/-- Whitespace, as in the regex class `\s` and Rust `char::is_whitespace`
(ASCII fragment). -/
def isWs (c : Char) : Bool :=
  c = ' ' || c = '\t' || c = '\n' || c = '\r'

/-- Word characters, as in the regex class `\w` (ASCII fragment). -/
def isWordChar (c : Char) : Bool :=
  c.isAlphanum || c = '_'

/-- Digits, as in the regex class `\d` (ASCII fragment). -/
def isDigitChar (c : Char) : Bool :=
  c.isDigit

/-- `str::trim`: remove leading and trailing whitespace. -/
def trimStr (l : Str) : Str :=
  ((l.dropWhile isWs).reverse.dropWhile isWs).reverse

/-- Lowercasing, as in Rust `str::to_lowercase` (ASCII fragment). -/
def lowerStr (l : Str) : Str :=
  l.map Char.toLower

/-- Accumulator-style worker for `splitWs`; `acc` holds the characters of the
current token in reverse order. -/
def splitWsAux : Str → Str → List Str
  | acc, [] => if acc = [] then [] else [acc.reverse]
  | acc, c :: rest =>
    if isWs c then
      if acc = [] then splitWsAux [] rest
      else acc.reverse :: splitWsAux [] rest
    else splitWsAux (c :: acc) rest

/-- Rust `str::split_whitespace`: maximal runs of non-whitespace characters. -/
def splitWs (l : Str) : List Str :=
  splitWsAux [] l

/-- `PgnError` from pgn.rs. -/
inductive PgnError where
  | InvalidFormat (s : Str)
  | MissingHeader (s : Str)
  | InvalidHeader (s : Str)
  | IllegalMove (move_number : Nat) (move_text : Str) (reason : Str)
  | InvalidResult (s : Str)
  | EmptyPgn
  deriving DecidableEq, Repr

/-- `GameResult` from pgn.rs. -/
inductive GameResult where
  | WhiteWins
  | BlackWins
  | Draw
  | Ongoing
  deriving DecidableEq, Repr

instance : Inhabited GameResult := ⟨GameResult.Ongoing⟩

/-- `GameResult::from_pgn_string`: trim, then compare with the four canonical
literals. -/
def GameResult.from_pgn_string (s : Str) : Except PgnError GameResult :=
  let t := trimStr s
  if t = "1-0".toList then .ok .WhiteWins
  else if t = "0-1".toList then .ok .BlackWins
  else if t = "1/2-1/2".toList then .ok .Draw
  else if t = "*".toList then .ok .Ongoing
  else .error (.InvalidResult t)

/-- `PgnHeaders` from pgn.rs; the `HashMap` of other headers is modelled as an
association list with last-write-wins insertion. -/
structure PgnHeaders where
  event : Option Str := none
  site : Option Str := none
  date : Option Str := none
  round : Option Str := none
  white : Str := []
  black : Str := []
  result : GameResult := .Ongoing
  other : List (Str × Str) := []
  deriving DecidableEq, Repr

instance : Inhabited PgnHeaders := ⟨{}⟩

/-- `HashMap::insert` modelled on an association list: replace the binding of
`k` if present, otherwise append it. -/
def insertKV (m : List (Str × Str)) (k v : Str) : List (Str × Str) :=
  if m.any (fun p => p.1 = k) then
    m.map (fun p => if p.1 = k then (k, v) else p)
  else m ++ [(k, v)]

/-- `ParsedGame` from pgn.rs. -/
structure ParsedGame where
  headers : PgnHeaders
  moves : List Str
  final_fen : Str
  ply_count : Nat
  deriving DecidableEq, Repr

/-- `ValidatedGame` from pgn.rs. -/
structure ValidatedGame where
  headers : PgnHeaders
  moves : List Str
  final_fen : Str
  ply_count : Nat
  is_valid : Bool
  deriving DecidableEq, Repr

instance {ε α : Type} [DecidableEq ε] [DecidableEq α] :
    DecidableEq (Except ε α) := fun a b =>
  match a, b with
  | .error e1, .error e2 => decidable_of_iff (e1 = e2) (by simp)
  | .ok v1, .ok v2 => decidable_of_iff (v1 = v2) (by simp)
  | .error _, .ok _ => isFalse (by simp)
  | .ok _, .error _ => isFalse (by simp)

/-- Attempt the tag regex `\[(\w+)\s+"([^"]+)"\]` anchored at the head of `l`.
On success return `(key, value, consumed)`. -/
def matchTagAt : Str → Option (Str × Str × Nat)
  | [] => none
  | c0 :: r1 =>
    if c0 = '[' then
      let key := r1.takeWhile isWordChar
      let r2 := r1.dropWhile isWordChar
      if key = [] then none
      else
        let sp := r2.takeWhile isWs
        let r3 := r2.dropWhile isWs
        if sp = [] then none
        else
          match r3 with
          | [] => none
          | c3 :: r4 =>
            if c3 = '"' then
              let val := r4.takeWhile (fun c => c ≠ '"')
              let r5 := r4.dropWhile (fun c => c ≠ '"')
              if val = [] then none
              else
                match r5 with
                | c5 :: c6 :: _ =>
                  if c5 = '"' ∧ c6 = ']' then
                    some (key, val,
                      1 + key.length + sp.length + 1 + val.length + 2)
                  else none
                | _ => none
            else none
    else none

/-- Fuel-driven scan for all matches of the tag regex: at each position try an
anchored match; on success record `(end offset, key, value)` and resume after
the match, otherwise advance one character.  `pos` is the absolute offset of
the head of `l`. -/
def tagScanAux : Nat → Str → Nat → List (Nat × Str × Str)
  | 0, _, _ => []
  | _ + 1, [], _ => []
  | fuel + 1, c :: rest, pos =>
    match matchTagAt (c :: rest) with
    | some (k, v, n) =>
      (pos + n, k, v) :: tagScanAux fuel ((c :: rest).drop n) (pos + n)
    | none => tagScanAux fuel rest (pos + 1)

/-- All matches of the tag regex over the whole input, in document order,
with their end offsets (`captures_iter` in pgn.rs). -/
def tagMatches (l : Str) : List (Nat × Str × Str) :=
  tagScanAux l.length l 0

/-- `last_header_end` of pgn.rs: the end offset of the last match of the tag
regex over the whole input, `0` when there is none. -/
def tagBoundary (l : Str) : Nat :=
  (tagMatches l).foldl (fun _ m => m.1) 0

/-- One iteration of the header loop body in `parse_headers`: dispatch on the
lowercased key; the `Result` key is parsed and may fail with `InvalidResult`. -/
def applyTag (h : PgnHeaders) (kv : Str × Str) : Except PgnError PgnHeaders :=
  let k := kv.1
  let v := kv.2
  if lowerStr k = "event".toList then .ok { h with event := some v }
  else if lowerStr k = "site".toList then .ok { h with site := some v }
  else if lowerStr k = "date".toList then .ok { h with date := some v }
  else if lowerStr k = "round".toList then .ok { h with round := some v }
  else if lowerStr k = "white".toList then .ok { h with white := v }
  else if lowerStr k = "black".toList then .ok { h with black := v }
  else if lowerStr k = "result".toList then
    (GameResult.from_pgn_string v).map (fun r => { h with result := r })
  else .ok { h with other := insertKV h.other k v }

/-- Fold the header loop over the scanned tag list, propagating the first
`InvalidResult` error. -/
def foldTags : PgnHeaders → List (Nat × Str × Str) → Except PgnError PgnHeaders
  | h, [] => .ok h
  | h, m :: ms =>
    match applyTag h (m.2.1, m.2.2) with
    | .error e => .error e
    | .ok h2 => foldTags h2 ms

/-- `parse_headers` from pgn.rs: scan every tag occurrence over the whole
input, fold the header updates, validate the required `White`/`Black`
headers, and hand back the suffix after the last match. -/
def parse_headers (pgn : Str) : Except PgnError (PgnHeaders × Str) :=
  match foldTags {} (tagMatches pgn) with
  | .error e => .error e
  | .ok h =>
    if h.white = [] then .error (.MissingHeader "White".toList)
    else if h.black = [] then .error (.MissingHeader "Black".toList)
    else .ok (h, pgn.drop (tagBoundary pgn))

/-- Worker for the pass replacing `\{[^}]*\}` with a space.  The flag records
being inside a brace comment; a `'{'` opens one exactly when a closing `'}'`
exists later (otherwise the regex has no match there and the character is
kept). -/
def stripCurlyGo : Bool → Str → Str
  | _, [] => []
  | false, c :: rest =>
    if c = '{' && rest.contains '}' then ' ' :: stripCurlyGo true rest
    else c :: stripCurlyGo false rest
  | true, c :: rest =>
    if c = '}' then stripCurlyGo false rest else stripCurlyGo true rest

/-- `Regex::new(r"\{[^}]*\}").replace_all(_, " ")` from `parse_moves`. -/
def stripCurly (l : Str) : Str := stripCurlyGo false l

/-- Worker for the pass replacing `;[^\n]*` with a space: from a `';'` skip up
to (not including) the next newline. -/
def stripSemiGo : Bool → Str → Str
  | _, [] => []
  | false, c :: rest =>
    if c = ';' then ' ' :: stripSemiGo true rest
    else c :: stripSemiGo false rest
  | true, c :: rest =>
    if c = '\n' then '\n' :: stripSemiGo false rest else stripSemiGo true rest

/-- `Regex::new(r";[^\n]*").replace_all(_, " ")` from `parse_moves`. -/
def stripSemicolon (l : Str) : Str := stripSemiGo false l

/-- Is the head of the list a digit? -/
def headIsDigit : Str → Bool
  | d :: _ => isDigitChar d
  | [] => false

/-- Worker for the pass replacing `\$\d+` with a space; the flag records being
inside the digit run of a glyph. -/
def stripNagsGo : Bool → Str → Str
  | _, [] => []
  | false, c :: rest =>
    if c = '$' && headIsDigit rest then ' ' :: stripNagsGo true rest
    else c :: stripNagsGo false rest
  | true, c :: rest =>
    if isDigitChar c then stripNagsGo true rest
    else if c = '$' && headIsDigit rest then ' ' :: stripNagsGo true rest
    else c :: stripNagsGo false rest

/-- `Regex::new(r"\$\d+").replace_all(_, " ")` from `parse_moves`. -/
def stripNags (l : Str) : Str := stripNagsGo false l

/-- Does the first parenthesis character occurring in the list exist and is it
a closing one?  (Lookahead used to decide whether `\([^()]*\)` matches at an
opening parenthesis.) -/
def firstParenIsClose : Str → Bool
  | [] => false
  | c :: rest =>
    if c = ')' then true
    else if c = '(' then false
    else firstParenIsClose rest

/-- Worker for the pass replacing `\([^()]*\)` (one nesting level only) with a
space. -/
def stripParensGo : Bool → Str → Str
  | _, [] => []
  | false, c :: rest =>
    if c = '(' && firstParenIsClose rest then ' ' :: stripParensGo true rest
    else c :: stripParensGo false rest
  | true, c :: rest =>
    if c = ')' then stripParensGo false rest else stripParensGo true rest

/-- `Regex::new(r"\([^()]*\)").replace_all(_, " ")` from `parse_moves`. -/
def stripParens (l : Str) : Str := stripParensGo false l

/-- The filter regex `^\d+\.+$`: one or more digits followed by one or more
dots. -/
def isMoveNumberToken (t : Str) : Bool :=
  let ds := t.takeWhile isDigitChar
  let rest := t.dropWhile isDigitChar
  ds ≠ [] && rest ≠ [] && rest.all (fun c => c = '.')

/-- The filter regex `^(1-0|0-1|1/2-1/2|\*)$`. -/
def isResultToken (t : Str) : Bool :=
  t = "1-0".toList || t = "0-1".toList || t = "1/2-1/2".toList ||
    t = "*".toList

/-- `parse_moves` from pgn.rs: strip comments, semicolon comments, NAGs and
one level of variations, split on whitespace, and drop move numbers, result
literals and empty tokens. -/
def parse_moves (move_text : Str) : List Str :=
  let s4 := stripParens (stripNags (stripSemicolon (stripCurly move_text)))
  (splitWs s4).filter
    (fun t => !isMoveNumberToken t && !isResultToken t && t ≠ [])

/-- `parse_pgn` from pgn.rs: trim, reject empty input, parse headers, then
tokenize the remainder.  `final_fen` and `ply_count` are placeholders filled
during validation. -/
def parse_pgn (pgn_string : Str) : Except PgnError ParsedGame :=
  let pgn := trimStr pgn_string
  if pgn = [] then .error .EmptyPgn
  else
    match parse_headers pgn with
    | .error e => .error e
    | .ok hm =>
      .ok { headers := hm.1, moves := parse_moves hm.2,
            final_fen := [], ply_count := 0 }

/-- Side to move. -/
inductive Color where
  | white
  | black
  deriving DecidableEq, Repr

/-- The opposite side. -/
def Color.other : Color → Color
  | .white => .black
  | .black => .white

/-- Piece kinds. -/
inductive Role where
  | pawn
  | knight
  | bishop
  | rook
  | queen
  | king
  deriving DecidableEq, Repr

/-- A coloured piece. -/
structure Piece where
  color : Color
  role : Role
  deriving DecidableEq, Repr

/-- The board: 64 optional pieces, square index = file + 8 * rank,
rank 0 being White's first rank. -/
abbrev Board := List (Option Piece)

/-- Castling rights of both sides. -/
structure CastlingRights where
  wk : Bool
  wq : Bool
  bk : Bool
  bq : Bool
  deriving DecidableEq, Repr

/-- A full chess position. -/
structure ChessPos where
  board : Board
  turn : Color
  castling : CastlingRights
  epSquare : Option Nat
  halfmoveClock : Nat
  fullmoveNumber : Nat
  deriving DecidableEq, Repr

/-- File (0–7) of a square index. -/
def fileOf (sq : Nat) : Nat := sq % 8

/-- Rank (0–7) of a square index. -/
def rankOf (sq : Nat) : Nat := sq / 8

/-- Square index from file and rank. -/
def mkSq (f r : Nat) : Nat := f + 8 * r

/-- Piece on a square. -/
def pieceAt (b : Board) (sq : Nat) : Option Piece := b.getD sq none

/-- White's back rank, queenside to kingside. -/
def backRank (c : Color) : List (Option Piece) :=
  [Role.rook, Role.knight, Role.bishop, Role.queen,
    Role.king, Role.bishop, Role.knight, Role.rook].map
    (fun r => some ⟨c, r⟩)

/-- A rank of pawns of the given colour. -/
def pawnRank (c : Color) : List (Option Piece) :=
  List.replicate 8 (some ⟨c, Role.pawn⟩)

/-- An empty rank. -/
def emptyRank : List (Option Piece) := List.replicate 8 none

/-- The standard starting position (`Chess::default()`). -/
def startingPosition : ChessPos where
  board := backRank .white ++ pawnRank .white ++ emptyRank ++ emptyRank ++
    emptyRank ++ emptyRank ++ pawnRank .black ++ backRank .black
  turn := .white
  castling := ⟨true, true, true, true⟩
  epSquare := none
  halfmoveClock := 0
  fullmoveNumber := 1

/-- Parsed SAN, mirroring the constructors of shakmaty `San`. -/
inductive San where
  | normal (role : Role) (fromFile : Option Nat) (fromRank : Option Nat)
      (capture : Bool) (toSq : Nat) (promotion : Option Role)
  | castleShort
  | castleLong
  | nullSan
  deriving DecidableEq, Repr

/-- File letter of SAN. -/
def fileOfChar (c : Char) : Option Nat :=
  if 'a' ≤ c ∧ c ≤ 'h' then some (c.toNat - 'a'.toNat) else none

/-- Rank digit of SAN. -/
def rankOfChar (c : Char) : Option Nat :=
  if '1' ≤ c ∧ c ≤ '8' then some (c.toNat - '1'.toNat) else none

/-- Piece letter of SAN. -/
def roleOfChar (c : Char) : Option Role :=
  if c = 'N' then some .knight
  else if c = 'B' then some .bishop
  else if c = 'R' then some .rook
  else if c = 'Q' then some .queen
  else if c = 'K' then some .king
  else none

/-- Remove a trailing check/checkmate suffix from a SAN token. -/
def dropSanSuffix (t : Str) : Str :=
  (t.reverse.dropWhile (fun c => c = '+' || c = '#')).reverse

/-- Parse the `[KQRBN]?[a-h]?[1-8]?x?` prefix of a normal SAN move. -/
def parseSanFront (p : Str) : Option (Role × Option Nat × Option Nat × Bool) :=
  let (role, p1) :=
    match p with
    | c :: rest =>
      match roleOfChar c with
      | some r => (r, rest)
      | none => (Role.pawn, p)
    | [] => (Role.pawn, p)
  let (ff, p2) :=
    match p1 with
    | c :: rest =>
      match fileOfChar c with
      | some f => (some f, rest)
      | none => (none, p1)
    | [] => (none, p1)
  let (fr, p3) :=
    match p2 with
    | c :: rest =>
      match rankOfChar c with
      | some r => (some r, rest)
      | none => (none, p2)
    | [] => (none, p2)
  match p3 with
  | [] => some (role, ff, fr, false)
  | ['x'] => some (role, ff, fr, true)
  | _ => none

/-- Parse the body of a normal SAN move (promotion already split off):
optional piece letter, optional disambiguation, optional capture cross, then
a target square as the final two characters. -/
def parseSanCore (core : Str) (promo : Option Role) : Option San :=
  match core.reverse with
  | rk :: fl :: pre =>
    match fileOfChar fl, rankOfChar rk with
    | some f, some r =>
      match parseSanFront pre.reverse with
      | some (role, ff, fr, cap) =>
        if promo ≠ none ∧ role ≠ .pawn then none
        else some (.normal role ff fr cap (mkSq f r) promo)
      | none => none
    | _, _ => none
  | _ => none

/-- Parse a normal (non-castling) SAN move: split off an optional trailing
`=`-promotion, then delegate to `parseSanCore`. -/
def parseSanNormal (t : Str) : Option San :=
  match t.reverse with
  | p :: '=' :: rest =>
    match roleOfChar p with
    | some r => if r = .king then none else parseSanCore rest.reverse (some r)
    | none => none
  | _ => parseSanCore t none

/-- SAN parsing (`move_san.parse::<San>()` via shakmaty): castling tokens,
the null move, or a normal move, with an optional check suffix. -/
def sanParse (t : Str) : Option San :=
  let t := dropSanSuffix t
  if t = "O-O-O".toList then some .castleLong
  else if t = "O-O".toList then some .castleShort
  else if t = "--".toList then some .nullSan
  else parseSanNormal t

/-- A concrete move. -/
inductive Mv where
  | normal (fromSq toSq : Nat) (promo : Option Role)
  | castle (short : Bool)
  deriving DecidableEq, Repr

/-- Is the path between two squares (exclusive) empty, stepping by the given
file/rank deltas from the source? -/
def pathClearAux (b : Board) : Nat → Int → Int → Int → Int → Int → Int → Bool
  | 0, _, _, _, _, _, _ => false
  | fuel + 1, f, r, df, dr, tf, tr =>
    let nf := f + df
    let nr := r + dr
    if nf = tf ∧ nr = tr then true
    else
      match pieceAt b (mkSq nf.toNat nr.toNat) with
      | some _ => false
      | none => pathClearAux b fuel nf nr df dr tf tr

/-- Is every square strictly between `fromSq` and `toSq` empty (along the
line joining them)? -/
def pathClear (b : Board) (fromSq toSq : Nat) : Bool :=
  let f : Int := fileOf fromSq
  let r : Int := rankOf fromSq
  let tf : Int := fileOf toSq
  let tr : Int := rankOf toSq
  let df : Int := Int.sign (tf - f)
  let dr : Int := Int.sign (tr - r)
  pathClearAux b 8 f r df dr tf tr

/-- Movement geometry of a piece from `fromSq` to `toSq` (target occupancy
not considered, pawns excluded). -/
def geomOk (b : Board) (role : Role) (fromSq toSq : Nat) : Bool :=
  let df : Int := (fileOf toSq : Int) - (fileOf fromSq : Int)
  let dr : Int := (rankOf toSq : Int) - (rankOf fromSq : Int)
  let adf := df.natAbs
  let adr := dr.natAbs
  match role with
  | .knight => (adf = 1 ∧ adr = 2) ∨ (adf = 2 ∧ adr = 1)
  | .king => adf ≤ 1 ∧ adr ≤ 1 ∧ (adf ≠ 0 ∨ adr ≠ 0)
  | .rook => ((adf = 0 ∧ adr ≠ 0) ∨ (adr = 0 ∧ adf ≠ 0)) ∧ pathClear b fromSq toSq
  | .bishop => adf = adr ∧ adf ≠ 0 ∧ pathClear b fromSq toSq
  | .queen =>
    ((adf = 0 ∧ adr ≠ 0) ∨ (adr = 0 ∧ adf ≠ 0) ∨ (adf = adr ∧ adf ≠ 0)) ∧
      pathClear b fromSq toSq
  | .pawn => false

/-- Pawn advance direction. -/
def pawnDir : Color → Int
  | .white => 1
  | .black => -1

/-- Home (double push) rank of pawns. -/
def pawnHomeRank : Color → Nat
  | .white => 1
  | .black => 6

/-- Last (promotion) rank of pawns. -/
def pawnLastRank : Color → Nat
  | .white => 7
  | .black => 0

/-- Does the piece on `fromSq` attack `toSq` (capture geometry)? -/
def attacksSq (b : Board) (fromSq toSq : Nat) : Bool :=
  match pieceAt b fromSq with
  | none => false
  | some pc =>
    match pc.role with
    | .pawn =>
      let df : Int := (fileOf toSq : Int) - (fileOf fromSq : Int)
      let dr : Int := (rankOf toSq : Int) - (rankOf fromSq : Int)
      df.natAbs = 1 ∧ dr = pawnDir pc.color
    | r => geomOk b r fromSq toSq

/-- Is `sq` attacked by any piece of colour `c`? -/
def attacked (b : Board) (c : Color) (sq : Nat) : Bool :=
  (List.range 64).any fun fromSq =>
    match pieceAt b fromSq with
    | some pc => pc.color = c && attacksSq b fromSq sq
    | none => false

/-- The king square of a colour, if present. -/
def kingSquare (b : Board) (c : Color) : Option Nat :=
  (List.range 64).find? fun sq => pieceAt b sq = some ⟨c, Role.king⟩

/-- Is the king of colour `c` in check? -/
def inCheck (b : Board) (c : Color) : Bool :=
  match kingSquare b c with
  | some sq => attacked b c.other sq
  | none => false

/-- Pseudo-legal movement of a normal move for the side to move: piece
occupancy, geometry, pawn pushes/captures/en passant, promotion
consistency. -/
def canMove (p : ChessPos) (fromSq toSq : Nat) (promo : Option Role) : Bool :=
  if fromSq < 64 ∧ toSq < 64 ∧ fromSq ≠ toSq then
    match pieceAt p.board fromSq with
    | none => false
    | some pc =>
      pc.color = p.turn &&
      (match pieceAt p.board toSq with
        | some tgt => tgt.color ≠ pc.color
        | none => true) &&
      (match pc.role with
        | .pawn =>
          let d := pawnDir pc.color
          let df : Int := (fileOf toSq : Int) - (fileOf fromSq : Int)
          let dr : Int := (rankOf toSq : Int) - (rankOf fromSq : Int)
          (df = 0 ∧ dr = d ∧ pieceAt p.board toSq = none) ∨
          (df = 0 ∧ dr = 2 * d ∧ rankOf fromSq = pawnHomeRank pc.color ∧
            pieceAt p.board (mkSq (fileOf fromSq) (rankOf fromSq + d).toNat) = none ∧
            pieceAt p.board toSq = none) ∨
          (df.natAbs = 1 ∧ dr = d ∧
            ((∃ tgt, pieceAt p.board toSq = some tgt ∧ tgt.color = pc.color.other) ∨
              (p.epSquare = some toSq ∧ pieceAt p.board toSq = none)))
        | r => geomOk p.board r fromSq toSq) &&
      (match pc.role with
        | .pawn =>
          if rankOf toSq = pawnLastRank pc.color then
            match promo with
            | some pr => pr ≠ .pawn ∧ pr ≠ .king
            | none => false
          else promo = none
        | _ => promo = none)
  else false

/-- Board update of a normal move: move the piece (with promotion), remove an
en-passant captured pawn. -/
def applyNormalBoard (p : ChessPos) (fromSq toSq : Nat) (promo : Option Role) :
    Board :=
  match pieceAt p.board fromSq with
  | none => p.board
  | some pc =>
    let moved : Piece :=
      match promo with
      | some r => ⟨pc.color, r⟩
      | none => pc
    let b1 := (p.board.set fromSq none).set toSq (some moved)
    if pc.role = .pawn ∧ p.epSquare = some toSq ∧
        pieceAt p.board toSq = none then
      b1.set (mkSq (fileOf toSq) (rankOf fromSq)) none
    else b1

/-- Castling rights after a move touching `sq` (king or rook leaving, rook
being captured). -/
def clearRights (cr : CastlingRights) (sq : Nat) : CastlingRights :=
  let cr := if sq = 4 then { cr with wk := false, wq := false } else cr
  let cr := if sq = 0 then { cr with wq := false } else cr
  let cr := if sq = 7 then { cr with wk := false } else cr
  let cr := if sq = 60 then { cr with bk := false, bq := false } else cr
  let cr := if sq = 56 then { cr with bq := false } else cr
  if sq = 63 then { cr with bk := false } else cr

/-- Apply a move to a position (the move is assumed pseudo-legal). -/
def applyMove (p : ChessPos) (m : Mv) : ChessPos :=
  match m with
  | .normal fromSq toSq promo =>
    let pc := pieceAt p.board fromSq
    let isPawn := pc.any (fun x => x.role = .pawn)
    let isCapture := (pieceAt p.board toSq).isSome ||
      (isPawn && p.epSquare = some toSq)
    let newEp :=
      if isPawn ∧ ((rankOf toSq : Int) - (rankOf fromSq : Int)).natAbs = 2 then
        some (mkSq (fileOf fromSq) ((rankOf fromSq + rankOf toSq) / 2))
      else none
    { board := applyNormalBoard p fromSq toSq promo
      turn := p.turn.other
      castling := clearRights (clearRights p.castling fromSq) toSq
      epSquare := newEp
      halfmoveClock := if isPawn || isCapture then 0 else p.halfmoveClock + 1
      fullmoveNumber :=
        if p.turn = .black then p.fullmoveNumber + 1 else p.fullmoveNumber }
  | .castle short =>
    let rank := if p.turn = .white then 0 else 7
    let kFrom := mkSq 4 rank
    let kTo := if short then mkSq 6 rank else mkSq 2 rank
    let rFrom := if short then mkSq 7 rank else mkSq 0 rank
    let rTo := if short then mkSq 5 rank else mkSq 3 rank
    let b1 := (((p.board.set kFrom none).set rFrom none).set kTo
      (some ⟨p.turn, .king⟩)).set rTo (some ⟨p.turn, .rook⟩)
    { board := b1
      turn := p.turn.other
      castling :=
        if p.turn = .white then { p.castling with wk := false, wq := false }
        else { p.castling with bk := false, bq := false }
      epSquare := none
      halfmoveClock := p.halfmoveClock + 1
      fullmoveNumber :=
        if p.turn = .black then p.fullmoveNumber + 1 else p.fullmoveNumber }

/-- Is castling on the given side legal for the side to move? -/
def castleLegal (p : ChessPos) (short : Bool) : Bool :=
  let rank := if p.turn = .white then 0 else 7
  let right :=
    match p.turn, short with
    | .white, true => p.castling.wk
    | .white, false => p.castling.wq
    | .black, true => p.castling.bk
    | .black, false => p.castling.bq
  let kFrom := mkSq 4 rank
  let rFrom := if short then mkSq 7 rank else mkSq 0 rank
  let between := if short then [mkSq 5 rank, mkSq 6 rank]
    else [mkSq 1 rank, mkSq 2 rank, mkSq 3 rank]
  let transit := if short then [mkSq 4 rank, mkSq 5 rank, mkSq 6 rank]
    else [mkSq 4 rank, mkSq 3 rank, mkSq 2 rank]
  right &&
  pieceAt p.board kFrom = some ⟨p.turn, .king⟩ &&
  pieceAt p.board rFrom = some ⟨p.turn, .rook⟩ &&
  between.all (fun sq => pieceAt p.board sq = none) &&
  transit.all (fun sq => !attacked p.board p.turn.other sq)

/-- Full legality of a move for the side to move. -/
def legalMv (p : ChessPos) (m : Mv) : Bool :=
  match m with
  | .normal fromSq toSq promo =>
    canMove p fromSq toSq promo &&
      !inCheck (applyMove p m).board p.turn
  | .castle short => castleLegal p short

/-- Does the concrete move capture something (for SAN capture-flag
matching)? -/
def isCaptureMv (p : ChessPos) (fromSq toSq : Nat) : Bool :=
  (match pieceAt p.board toSq with
    | some tgt => tgt.color ≠ p.turn
    | none => false) ||
  ((pieceAt p.board fromSq).any (fun pc => pc.role = .pawn) &&
    p.epSquare = some toSq)

/-- `San::to_move` via shakmaty: resolve the SAN descriptor against the legal
moves of the current position; fail unless exactly one legal move matches. -/
def sanToMove (san : San) (p : ChessPos) : Option Mv :=
  match san with
  | .castleShort => if castleLegal p true then some (.castle true) else none
  | .castleLong => if castleLegal p false then some (.castle false) else none
  | .nullSan => none
  | .normal role ff fr cap toSq promo =>
    let candidates := (List.range 64).filter fun fromSq =>
      (match pieceAt p.board fromSq with
        | some pc => pc.color = p.turn && pc.role = role
        | none => false) &&
      (match ff with
        | some f => fileOf fromSq = f
        | none => true) &&
      (match fr with
        | some r => rankOf fromSq = r
        | none => true) &&
      isCaptureMv p fromSq toSq = cap &&
      legalMv p (.normal fromSq toSq promo)
    match candidates with
    | [fromSq] => some (.normal fromSq toSq promo)
    | _ => none

/-- `Position::play` via shakmaty: apply the move if it is legal. -/
def playMv (p : ChessPos) (m : Mv) : Option ChessPos :=
  if legalMv p m then some (applyMove p m) else none

/-- Decimal rendering of a natural number (fuel-driven). -/
def natToStrAux : Nat → Nat → Str → Str
  | 0, _, acc => acc
  | fuel + 1, n, acc =>
    let d := Char.ofNat ('0'.toNat + n % 10)
    if n < 10 then d :: acc else natToStrAux fuel (n / 10) (d :: acc)

/-- Decimal rendering of a natural number. -/
def natToStr (n : Nat) : Str := natToStrAux 12 n []

/-- FEN letter of a piece. -/
def pieceChar (pc : Piece) : Char :=
  let c :=
    match pc.role with
    | .pawn => 'p'
    | .knight => 'n'
    | .bishop => 'b'
    | .rook => 'r'
    | .queen => 'q'
    | .king => 'k'
  if pc.color = .white then c.toUpper else c

/-- FEN encoding of one rank: pieces interleaved with empty-run counts. -/
def fenRank (b : Board) (r : Nat) : Str :=
  let step := fun (st : Str × Nat) (f : Nat) =>
    match pieceAt b (mkSq f r) with
    | none => (st.1, st.2 + 1)
    | some pc =>
      (st.1 ++ (if st.2 = 0 then [] else natToStr st.2) ++ [pieceChar pc], 0)
  let st := (List.range 8).foldl step (([] : Str), 0)
  st.1 ++ (if st.2 = 0 then [] else natToStr st.2)

/-- FEN board field: ranks 8 down to 1 joined by slashes. -/
def fenBoard (b : Board) : Str :=
  List.intercalate "/".toList (((List.range 8).reverse).map (fenRank b))

/-- FEN castling field. -/
def fenCastling (cr : CastlingRights) : Str :=
  let s := (if cr.wk then ['K'] else []) ++ (if cr.wq then ['Q'] else []) ++
    (if cr.bk then ['k'] else []) ++ (if cr.bq then ['q'] else [])
  if s = [] then ['-'] else s

/-- Algebraic name of a square. -/
def sqName (sq : Nat) : Str :=
  [Char.ofNat ('a'.toNat + fileOf sq), Char.ofNat ('1'.toNat + rankOf sq)]

/-- Does a legal en-passant capture exist (shakmaty `EnPassantMode::Legal`)? -/
def legalEpExists (p : ChessPos) : Bool :=
  match p.epSquare with
  | some s =>
    (List.range 64).any fun fromSq =>
      (match pieceAt p.board fromSq with
        | some pc => pc.color = p.turn && pc.role = .pawn
        | none => false) && legalMv p (.normal fromSq s none)
  | none => false

/-- `Fen::from_position(_, EnPassantMode::Legal).to_string()` via shakmaty:
board, side to move, castling, en-passant target (only when a legal
en-passant capture exists), halfmove clock and fullmove number. -/
def toFen (p : ChessPos) : Str :=
  fenBoard p.board ++ [' '] ++
  (if p.turn = .white then ['w'] else ['b']) ++ [' '] ++
  fenCastling p.castling ++ [' '] ++
  (match p.epSquare with
    | some s => if legalEpExists p then sqName s else ['-']
    | none => ['-']) ++ [' '] ++
  natToStr p.halfmoveClock ++ [' '] ++
  natToStr p.fullmoveNumber

/-- Error reason of a failing SAN parse. -/
def reasonInvalidSan : Str := "Invalid move notation".toList

/-- Error reason of a failing SAN resolution. -/
def reasonNotLegal : Str := "Move is not legal in this position".toList

/-- Error reason of a failing move application. -/
def reasonLeavesCheck : Str := "Move leaves king in check".toList

/-- One iteration of the loop body of `validate_game`: parse the SAN token,
resolve it against the current position, apply it; each failure produces an
`IllegalMove` whose `move_number` is `idx / 2 + 1` for the 0-based token
index `idx`. -/
def validateStep (p : ChessPos) (idx : Nat) (mv : Str) :
    Except PgnError ChessPos :=
  let move_number := idx / 2 + 1
  match sanParse mv with
  | none => .error (.IllegalMove move_number mv reasonInvalidSan)
  | some san =>
    match sanToMove san p with
    | none => .error (.IllegalMove move_number mv reasonNotLegal)
    | some m =>
      match playMv p m with
      | none => .error (.IllegalMove move_number mv reasonLeavesCheck)
      | some p2 => .ok p2

/-- The `for (idx, move_san) in parsed.moves.iter().enumerate()` loop of
`validate_game`: thread the position, abort on the first error, and collect
the validated tokens in order. -/
def validateLoop :
    ChessPos → Nat → List Str → Except PgnError (ChessPos × List Str)
  | p, _, [] => .ok (p, [])
  | p, idx, mv :: rest =>
    match validateStep p idx mv with
    | .error e => .error e
    | .ok p2 =>
      match validateLoop p2 (idx + 1) rest with
      | .error e => .error e
      | .ok pr => .ok (pr.1, mv :: pr.2)

/-- `validate_game` from pgn.rs: replay all moves from the starting position;
on success return the validated game with the final FEN. -/
def validate_game (parsed : ParsedGame) : Except PgnError ValidatedGame :=
  match validateLoop startingPosition 0 parsed.moves with
  | .error e => .error e
  | .ok pr =>
    .ok { headers := parsed.headers
          moves := pr.2
          final_fen := toFen pr.1
          ply_count := parsed.moves.length
          is_valid := true }

/-- The import pipeline: parse, then validate (how the service layer composes
`parse_pgn` and `validate_game`). -/
def importPgn (s : Str) : Except PgnError ValidatedGame :=
  match parse_pgn s with
  | .error e => .error e
  | .ok g => validate_game g

/-- The three oracle steps of one token, without the error bookkeeping (used
to phrase which token of a game is the first failing one). -/
def applySan (p : ChessPos) (mv : Str) : Option ChessPos :=
  match sanParse mv with
  | none => none
  | some san =>
    match sanToMove san p with
    | none => none
    | some m => playMv p m

/-- Replay a whole token list with `applySan`. -/
def applyAll : ChessPos → List Str → Option ChessPos
  | p, [] => some p
  | p, mv :: rest =>
    match applySan p mv with
    | some p2 => applyAll p2 rest
    | none => none

/-- A parsed game whose second token is not SAN. -/
def zzGame : ParsedGame where
  headers := {}
  moves := ["e4".toList, "zz".toList]
  final_fen := []
  ply_count := 0

/-- A parsed game whose first token is not SAN. -/
def zzOnlyGame : ParsedGame where
  headers := {}
  moves := ["zz".toList]
  final_fen := []
  ply_count := 0

/-- A parsed game with a single legal move. -/
def gameE4 : ParsedGame where
  headers := {}
  moves := ["e4".toList]
  final_fen := []
  ply_count := 0

/-- The validated game produced from `gameE4`. -/
def valE4 : ValidatedGame where
  headers := {}
  moves := ["e4".toList]
  final_fen :=
    "rnbqkbnr/pppppppp/8/8/4P3/8/PPPP1PPP/RNBQKBNR b KQkq - 0 1".toList
  ply_count := 1
  is_valid := true

/-- A parsed game with no moves at all. -/
def emptyGame : ParsedGame where
  headers := {}
  moves := []
  final_fen := []
  ply_count := 0

/-- The validated game produced from `emptyGame`. -/
def valEmpty : ValidatedGame where
  headers := {}
  moves := []
  final_fen :=
    "rnbqkbnr/pppppppp/8/8/8/8/PPPPPPPP/RNBQKBNR w KQkq - 0 1".toList
  ply_count := 0
  is_valid := true

/-- A headers-only PGN input used by the C9 witness. -/
def abInput : Str := "[White \"A\"][Black \"B\"]".toList

/-- The parsed game produced from `abInput`. -/
def parsedAB : ParsedGame where
  headers := { white := "A".toList, black := "B".toList }
  moves := []
  final_fen := []
  ply_count := 0

/-- Is a string one of the four canonical result literals? -/
def isCanonicalResult (t : Str) : Bool :=
  t = "1-0".toList || t = "0-1".toList || t = "1/2-1/2".toList ||
    t = "*".toList

/-- The trimmed value of the first `Result`-keyed tag whose value is not
canonical, if any. -/
def firstResultError : List (Nat × Str × Str) → Option Str
  | [] => none
  | m :: ms =>
    if lowerStr m.2.1 = "result".toList then
      if isCanonicalResult (trimStr m.2.2) then firstResultError ms
      else some (trimStr m.2.2)
    else firstResultError ms

/-- The value of the last tag with the given (lowercased) key, starting from
a default. -/
def lastKeyed (key : Str) : Str → List (Nat × Str × Str) → Str
  | w, [] => w
  | w, m :: ms => lastKeyed key (if lowerStr m.2.1 = key then m.2.2 else w) ms

/-- The input of the C2 counterexample: a tag-shaped substring sits inside a
brace comment of the move text. -/
def c2cxIn : Str :=
  "[White \"A\"] [Black \"B\"] 1. e4 \x7b[Foo \"bar\"]\x7d e5".toList

/-- The headers `parse_headers` extracts from `c2cxIn`: the comment tag
`Foo` is treated as a header. -/
def c2cxHdrs : PgnHeaders where
  white := "A".toList
  black := "B".toList
  other := [("Foo".toList, "bar".toList)]

/-- The input of the C2 witness. -/
def c2wIn : Str := "[White \"A\"][Black \"B\"] 1. e4".toList

/-- The input of the C6 witness. -/
def c6In : Str := "[White \"A\"][Black \"B\"][Result \"2-0\"]".toList

/-- The input of the C7 counterexample: `White` is missing AND the `Result`
value is not canonical. -/
def c7cxIn : Str := "[Black \"B\"][Result \"2-0\"] 1. e4".toList

/-- The input of the C7 witness. -/
def c7wIn : Str := "[Black \"B\"] 1. e4".toList

/-- The input of the C10 witness. -/
def c10In : Str := "[Result \"0-2\"]".toList

/-- The canonical shape of an anchored tag match: `[`, key, spaces, quoted
value, `]`, rest. -/
def tagShape (k sp v tail : Str) : Str :=
  '[' :: (k ++ (sp ++ ('"' :: (v ++ ('"' :: (']' :: tail))))))

/-- The suffix after the first occurrence of `t`, if any. -/
def afterFirst (t : Char) : Str → Option Str
  | [] => none
  | c :: rest => if c = t then some rest else afterFirst t rest

/-- Fuel-driven worker for `curlyClean`: every `'\x7b'` is followed by a
closing `'\x7d'`, with matching to the first closer (as the brace-comment
regex does). -/
def curlyCleanAux : Nat → Str → Bool
  | _, [] => true
  | 0, _ :: _ => false
  | fuel + 1, c :: rest =>
    if c = '{' then
      match afterFirst '}' rest with
      | some r => curlyCleanAux fuel r
      | none => false
    else curlyCleanAux fuel rest

/-- No brace comment opened in `l` is left unclosed at its end. -/
def curlyClean (l : Str) : Bool := curlyCleanAux l.length l

/-- The shape of a difference segment the NAG pass collapses to one space: a
lone space (what the brace pass leaves of a comment) or a complete `$`-glyph. -/
def nagSeg (D : Str) : Prop :=
  D = [' '] ∨ ∃ ds, D = '$' :: ds ∧ ds ≠ [] ∧ ∀ c ∈ ds, isDigitChar c = true

/-- Everything up to the insertion point of the C3 counterexample. -/
def c3pre : Str := "[White \"A\"][Black \"B\"] 1. e4 ".toList

/-- The original input of the C3 counterexample. -/
def c3origIn : Str := c3pre ++ "e5".toList

/-- The C3 counterexample input: the brace comment `\x7b[C \"D\"]\x7d` and a
space inserted between the moves `e4` and `e5`. -/
def c3insIn : Str := c3pre ++ "\x7b[C \"D\"]\x7d ".toList ++ "e5".toList

/-- The header block of the C3 witness. -/
def c3wH : Str := "[White \"A\"][Black \"B\"]".toList

/-- Move text before the insertion point of the C3 witness. -/
def c3wA : Str := " 1. e4".toList

/-- Move text after the insertion point of the C3 witness. -/
def c3wB : Str := "e5".toList

/-- The inserted comment body of the C3 witness. -/
def c3wBody : Str := "a comment".toList

/-! ## Lemmas and claim theorems -/

/-- A token whose three oracle steps succeed passes `validateStep`, whatever
its index. -/
lemma validateStep_ok (p p2 : ChessPos) (idx : Nat) (mv : Str)
    (h : applySan p mv = some p2) : validateStep p idx mv = .ok p2 := by
  cases hs : sanParse mv with
  | none => simp [applySan, hs] at h
  | some san =>
    cases hm : sanToMove san p with
    | none => simp [applySan, hs, hm] at h
    | some m =>
      simp [applySan, hs, hm] at h
      simp [validateStep, hs, hm, h]

/-- A token with a failing oracle step makes `validateStep` return an
`IllegalMove` with move number `idx / 2 + 1` and the token itself as
`move_text`. -/
lemma validateStep_err (p : ChessPos) (idx : Nat) (mv : Str)
    (h : applySan p mv = none) :
    ∃ r, validateStep p idx mv = .error (.IllegalMove (idx / 2 + 1) mv r) := by
  cases hs : sanParse mv with
  | none => exact ⟨reasonInvalidSan, by simp [validateStep, hs]⟩
  | some san =>
    cases hm : sanToMove san p with
    | none => exact ⟨reasonNotLegal, by simp [validateStep, hs, hm]⟩
    | some m =>
      cases hp : playMv p m with
      | none => exact ⟨reasonLeavesCheck, by simp [validateStep, hs, hm, hp]⟩
      | some q => simp [applySan, hs, hm, hp] at h

/-- If every token of `pre` applies and `t` then fails, the loop started at
index `idx` aborts with an `IllegalMove` whose move number is
`(idx + pre.length) / 2 + 1` and whose `move_text` is `t`. -/
lemma validateLoop_fail (pre : List Str) :
    ∀ (p p2 : ChessPos) (idx : Nat) (t : Str) (rest : List Str),
      applyAll p pre = some p2 → applySan p2 t = none →
      ∃ r, validateLoop p idx (pre ++ t :: rest) =
        .error (.IllegalMove ((idx + pre.length) / 2 + 1) t r) := by
  induction pre with
  | nil =>
    intro p p2 idx t rest hp ht
    have hpp : p = p2 := by simpa [applyAll] using hp
    subst hpp
    obtain ⟨r, hr⟩ := validateStep_err p idx t ht
    exact ⟨r, by simp [validateLoop, hr]⟩
  | cons mv pre ih =>
    intro p p2 idx t rest hp ht
    cases hs : applySan p mv with
    | none => simp [applyAll, hs] at hp
    | some q =>
      simp only [applyAll, hs] at hp
      obtain ⟨r, hr⟩ := ih q p2 (idx + 1) t rest hp ht
      have hstep := validateStep_ok p q idx mv hs
      refine ⟨r, ?_⟩
      have e0 : idx + (mv :: pre).length = idx + 1 + pre.length := by
        rw [List.length_cons]; omega
      rw [List.cons_append, e0]
      simp [validateLoop, hstep, hr]

/-- On success the loop returns exactly the tokens it was given. -/
lemma validateLoop_ok_moves :
    ∀ (ms : List Str) (p : ChessPos) (idx : Nat) (pr : ChessPos × List Str),
      validateLoop p idx ms = .ok pr → pr.2 = ms := by
  intro ms
  induction ms with
  | nil =>
    intro p idx pr h
    simp only [validateLoop] at h
    cases h
    rfl
  | cons mv rest ih =>
    intro p idx pr h
    cases hs : validateStep p idx mv with
    | error e => simp [validateLoop, hs] at h
    | ok p2 =>
      cases hl : validateLoop p2 (idx + 1) rest with
      | error e => simp [validateLoop, hs, hl] at h
      | ok pr2 =>
        simp only [validateLoop, hs, hl] at h
        cases h
        simpa using ih p2 (idx + 1) pr2 hl

/-- `validate_game` on a game whose first failing token follows the prefix
`pre`: it aborts with move number `pre.length / 2 + 1` and the failing token
as `move_text`. -/
lemma validate_game_fail (parsed : ParsedGame) (pre rest : List Str) (t : Str)
    (p2 : ChessPos) (hm : parsed.moves = pre ++ t :: rest)
    (hp : applyAll startingPosition pre = some p2)
    (ht : applySan p2 t = none) :
    ∃ r, validate_game parsed =
      .error (.IllegalMove (pre.length / 2 + 1) t r) := by
  obtain ⟨r, hr⟩ := validateLoop_fail pre startingPosition p2 0 t rest hp ht
  refine ⟨r, ?_⟩
  have e0 : (0 + pre.length) / 2 + 1 = pre.length / 2 + 1 := by omega
  rw [e0] at hr
  simp [validate_game, hm, hr]

/-- On success, `validate_game` hands back the input moves unchanged and sets
`ply_count` to their number. -/
lemma validate_game_ok (parsed : ParsedGame) (v : ValidatedGame)
    (h : validate_game parsed = .ok v) :
    v.moves = parsed.moves ∧ v.ply_count = parsed.moves.length := by
  cases hl : validateLoop startingPosition 0 parsed.moves with
  | error e => simp [validate_game, hl] at h
  | ok pr =>
    simp only [validate_game, hl] at h
    cases h
    exact ⟨validateLoop_ok_moves parsed.moves startingPosition 0 pr hl, rfl⟩

/-- C1, counterexample to the claim as stated: in `zzGame` the first failing
token is `"zz"` at 1-indexed token position 2 (the token `"e4"` before it
applies, and `"zz"` fails SAN parsing), so the claim predicts
`move_number = ⌊2 / 2⌋ + 1 = 2`; the code returns `move_number = 1`. -/
theorem claim_C1_counterexample :
    (applyAll startingPosition ["e4".toList]).isSome = true ∧
    (applyAll startingPosition ["e4".toList]).bind
      (fun p => applySan p "zz".toList) = none ∧
    validate_game zzGame =
      .error (.IllegalMove 1 "zz".toList reasonInvalidSan) ∧
    (2 / 2 + 1 : Nat) = 2 ∧ (1 : Nat) ≠ 2 := by
  refine ⟨by decide, by decide, by decide, by decide, by decide⟩

/-- C1 (amended): when validation fails at the token at 1-indexed position
`token_index = pre.length + 1` (every earlier token applies, this one fails),
the `IllegalMove` error carries
`move_number = ⌊(token_index - 1) / 2⌋ + 1 = pre.length / 2 + 1` — not
`⌊token_index / 2⌋ + 1` as the claim stated. -/
theorem claim_C1 (parsed : ParsedGame) (pre rest : List Str) (t : Str)
    (hm : parsed.moves = pre ++ t :: rest)
    (hpre : (applyAll startingPosition pre).isSome = true)
    (hfail : (applyAll startingPosition pre).bind
      (fun p => applySan p t) = none) :
    ∃ r, validate_game parsed =
      .error (.IllegalMove (pre.length / 2 + 1) t r) := by
  obtain ⟨p2, hp2⟩ := Option.isSome_iff_exists.mp hpre
  rw [hp2] at hfail
  exact validate_game_fail parsed pre rest t p2 hm hp2 (by simpa using hfail)

/-- C1 witness: the amended formula instantiated on `zzGame`, failing token
at 1-indexed position 2, reported move number `1 / 2 + 1 = 1`. -/
theorem claim_C1_witness :
    zzGame.moves = ["e4".toList] ++ "zz".toList :: [] ∧
    (applyAll startingPosition ["e4".toList]).isSome = true ∧
    (applyAll startingPosition ["e4".toList]).bind
      (fun p => applySan p "zz".toList) = none ∧
    (∃ r, validate_game zzGame =
      .error (.IllegalMove (["e4".toList].length / 2 + 1) "zz".toList r)) :=
  ⟨by decide, by decide, by decide,
    claim_C1 zzGame ["e4".toList] [] "zz".toList (by decide) (by decide)
      (by decide)⟩

/-- C4 (confirmed): if every token before `t` applies and `t` fails one of
the three oracle steps, `validate_game` returns an `IllegalMove` error whose
`move_text` is exactly `t`; no `ValidatedGame` is produced. -/
theorem claim_C4 (parsed : ParsedGame) (pre rest : List Str) (t : Str)
    (hm : parsed.moves = pre ++ t :: rest)
    (hpre : (applyAll startingPosition pre).isSome = true)
    (hfail : (applyAll startingPosition pre).bind
      (fun p => applySan p t) = none) :
    ∃ mn r, validate_game parsed = .error (.IllegalMove mn t r) := by
  obtain ⟨p2, hp2⟩ := Option.isSome_iff_exists.mp hpre
  rw [hp2] at hfail
  obtain ⟨r, hr⟩ :=
    validate_game_fail parsed pre rest t p2 hm hp2 (by simpa using hfail)
  exact ⟨pre.length / 2 + 1, r, hr⟩

/-- C4 witness: the game whose single token `"zz"` fails SAN parsing. -/
theorem claim_C4_witness :
    zzOnlyGame.moves = ([] : List Str) ++ "zz".toList :: [] ∧
    (applyAll startingPosition []).isSome = true ∧
    (applyAll startingPosition []).bind
      (fun p => applySan p "zz".toList) = none ∧
    (∃ mn r, validate_game zzOnlyGame =
      .error (.IllegalMove mn "zz".toList r)) :=
  ⟨by decide, by decide, by decide,
    claim_C4 zzOnlyGame [] [] "zz".toList (by decide) (by decide) (by decide)⟩

/-- C5 (confirmed): a successful `validate_game` returns the input moves
verbatim (same strings, same order) and a `ply_count` equal to their
number. -/
theorem claim_C5 (parsed : ParsedGame) (v : ValidatedGame)
    (h : validate_game parsed = .ok v) :
    v.moves = parsed.moves ∧ v.ply_count = parsed.moves.length :=
  validate_game_ok parsed v h

/-- C5 witness: the one-move game `gameE4` validates to `valE4`, which keeps
the move list and counts one ply. -/
theorem claim_C5_witness :
    validate_game gameE4 = .ok valE4 ∧
    valE4.moves = gameE4.moves ∧ valE4.ply_count = gameE4.moves.length :=
  ⟨by decide, claim_C5 gameE4 valE4 (by decide)⟩

/-- C8 (confirmed): `validate_game` is deterministic — two runs on the same
`ParsedGame` value give the same result; in particular two successful runs
agree on final FEN, moves and ply count. -/
theorem claim_C8 (parsed : ParsedGame)
    (r1 r2 : Except PgnError ValidatedGame)
    (h1 : validate_game parsed = r1) (h2 : validate_game parsed = r2) :
    r1 = r2 ∧
    ∀ v1 v2, r1 = .ok v1 → r2 = .ok v2 →
      v1.final_fen = v2.final_fen ∧ v1.moves = v2.moves ∧
        v1.ply_count = v2.ply_count := by
  subst h1
  subst h2
  refine ⟨rfl, ?_⟩
  intro v1 v2 hv1 hv2
  rw [hv1] at hv2
  cases hv2
  exact ⟨rfl, rfl, rfl⟩

/-- C8 witness: two runs on `emptyGame` agree, both yielding `valEmpty`. -/
theorem claim_C8_witness :
    validate_game emptyGame = .ok valEmpty ∧
    (Except.ok valEmpty : Except PgnError ValidatedGame) = .ok valEmpty ∧
    valEmpty.final_fen = valEmpty.final_fen ∧
    valEmpty.moves = valEmpty.moves ∧
    valEmpty.ply_count = valEmpty.ply_count := by
  have h := claim_C8 emptyGame (.ok valEmpty) (.ok valEmpty)
    (by decide) (by decide)
  exact ⟨by decide, h.1, h.2 valEmpty valEmpty rfl rfl⟩

/-- C9 (confirmed): every successful `parse_pgn` returns a `ParsedGame` with
an empty `final_fen` and a zero `ply_count`; these fields only become
meaningful in the `ValidatedGame`. -/
theorem claim_C9 (s : Str) (g : ParsedGame) (h : parse_pgn s = .ok g) :
    g.final_fen = [] ∧ g.ply_count = 0 := by
  by_cases he : trimStr s = []
  · simp [parse_pgn, he] at h
  · cases hh : parse_headers (trimStr s) with
    | error e => simp [parse_pgn, he, hh] at h
    | ok hm =>
      simp only [parse_pgn, he, hh, if_neg he] at h
      cases h
      exact ⟨rfl, rfl⟩

/-- C9 witness: parsing `abInput` succeeds with empty `final_fen` and zero
`ply_count`. -/
theorem claim_C9_witness :
    parse_pgn abInput = .ok parsedAB ∧
    parsedAB.final_fen = [] ∧ parsedAB.ply_count = 0 :=
  ⟨by decide, claim_C9 abInput parsedAB (by decide)⟩

/-- A non-canonical trimmed value makes `from_pgn_string` fail with
`InvalidResult` carrying the trimmed value. -/
lemma from_pgn_string_bad (v : Str)
    (h : isCanonicalResult (trimStr v) = false) :
    GameResult.from_pgn_string v = .error (.InvalidResult (trimStr v)) := by
  unfold GameResult.from_pgn_string
  dsimp only
  split_ifs with h1 h2 h3 h4
  · simp [isCanonicalResult, h1] at h
  · simp [isCanonicalResult, h2] at h
  · simp [isCanonicalResult, h3] at h
  · simp [isCanonicalResult, h4] at h
  · rfl

/-- A canonical trimmed value makes `from_pgn_string` succeed. -/
lemma from_pgn_string_good (v : Str)
    (h : isCanonicalResult (trimStr v) = true) :
    ∃ r, GameResult.from_pgn_string v = .ok r := by
  unfold GameResult.from_pgn_string
  dsimp only
  split_ifs with h1 h2 h3 h4
  · exact ⟨.WhiteWins, rfl⟩
  · exact ⟨.BlackWins, rfl⟩
  · exact ⟨.Draw, rfl⟩
  · exact ⟨.Ongoing, rfl⟩
  · exfalso
    unfold isCanonicalResult at h
    simp only [h1, h2, h3, h4] at h
    simp at h

/-- A tag whose key is not `result` (case-insensitively) always folds
successfully. -/
lemma applyTag_not_result (h0 : PgnHeaders) (kv : Str × Str)
    (hk : lowerStr kv.1 ≠ "result".toList) :
    ∃ h2, applyTag h0 kv = .ok h2 := by
  unfold applyTag
  dsimp only
  split_ifs <;> exact ⟨_, rfl⟩

/-- A `result`-keyed tag with a non-canonical value folds to
`InvalidResult`. -/
lemma applyTag_result_bad (h0 : PgnHeaders) (kv : Str × Str)
    (hk : lowerStr kv.1 = "result".toList)
    (hc : isCanonicalResult (trimStr kv.2) = false) :
    applyTag h0 kv = .error (.InvalidResult (trimStr kv.2)) := by
  unfold applyTag
  dsimp only
  split_ifs with h1 h2 h3 h4 h5 h6
  · rw [hk] at h1; exact absurd h1 (by decide)
  · rw [hk] at h2; exact absurd h2 (by decide)
  · rw [hk] at h3; exact absurd h3 (by decide)
  · rw [hk] at h4; exact absurd h4 (by decide)
  · rw [hk] at h5; exact absurd h5 (by decide)
  · rw [hk] at h6; exact absurd h6 (by decide)
  · rw [from_pgn_string_bad kv.2 hc]; rfl

/-- A `result`-keyed tag with a canonical value folds successfully. -/
lemma applyTag_result_good (h0 : PgnHeaders) (kv : Str × Str)
    (hk : lowerStr kv.1 = "result".toList)
    (hc : isCanonicalResult (trimStr kv.2) = true) :
    ∃ h2, applyTag h0 kv = .ok h2 := by
  unfold applyTag
  dsimp only
  split_ifs with h1 h2 h3 h4 h5 h6
  · exact ⟨_, rfl⟩
  · exact ⟨_, rfl⟩
  · exact ⟨_, rfl⟩
  · exact ⟨_, rfl⟩
  · exact ⟨_, rfl⟩
  · exact ⟨_, rfl⟩
  · obtain ⟨r, hr⟩ := from_pgn_string_good kv.2 hc
    exact ⟨_, by rw [hr]; rfl⟩

/-- How one fold step changes the `white` and `black` fields. -/
lemma applyTag_fields (h0 : PgnHeaders) (kv : Str × Str) (h2 : PgnHeaders)
    (ha : applyTag h0 kv = .ok h2) :
    h2.white = (if lowerStr kv.1 = "white".toList then kv.2 else h0.white) ∧
    h2.black = (if lowerStr kv.1 = "black".toList then kv.2 else h0.black) := by
  unfold applyTag at ha
  dsimp only at ha
  split_ifs at ha with h1 h2e h3 h4 h5 h6 h7
  · cases ha
    rw [if_neg (by rw [h1]; decide), if_neg (by rw [h1]; decide)]
    exact ⟨rfl, rfl⟩
  · cases ha
    rw [if_neg (by rw [h2e]; decide), if_neg (by rw [h2e]; decide)]
    exact ⟨rfl, rfl⟩
  · cases ha
    rw [if_neg (by rw [h3]; decide), if_neg (by rw [h3]; decide)]
    exact ⟨rfl, rfl⟩
  · cases ha
    rw [if_neg (by rw [h4]; decide), if_neg (by rw [h4]; decide)]
    exact ⟨rfl, rfl⟩
  · cases ha
    rw [if_pos h5, if_neg (by rw [h5]; decide)]
    exact ⟨rfl, rfl⟩
  · cases ha
    rw [if_neg (by rw [h6]; decide), if_pos h6]
    exact ⟨rfl, rfl⟩
  · cases hg : GameResult.from_pgn_string kv.2 with
    | error e => rw [hg] at ha; cases ha
    | ok r =>
      rw [hg] at ha
      cases ha
      rw [if_neg (by rw [h7]; decide), if_neg (by rw [h7]; decide)]
      exact ⟨rfl, rfl⟩
  · cases ha
    rw [if_neg h5, if_neg h6]
    exact ⟨rfl, rfl⟩

/-- The fold fails with `InvalidResult` on the first non-canonical
`Result` value. -/
lemma foldTags_bad : ∀ (ms : List (Nat × Str × Str)) (h0 : PgnHeaders)
    (w : Str), firstResultError ms = some w →
      foldTags h0 ms = .error (.InvalidResult w) := by
  intro ms
  induction ms with
  | nil => intro h0 w h; simp [firstResultError] at h
  | cons m ms ih =>
    intro h0 w h
    unfold firstResultError at h
    by_cases hk : lowerStr m.2.1 = "result".toList
    · rw [if_pos hk] at h
      by_cases hc : isCanonicalResult (trimStr m.2.2) = true
      · rw [if_pos hc] at h
        obtain ⟨h2, hh2⟩ := applyTag_result_good h0 (m.2.1, m.2.2) hk hc
        unfold foldTags
        rw [hh2]
        exact ih h2 w h
      · rw [if_neg hc] at h
        cases h
        unfold foldTags
        rw [applyTag_result_bad h0 (m.2.1, m.2.2) hk
          (Bool.not_eq_true _ ▸ hc)]
    · rw [if_neg hk] at h
      obtain ⟨h2, hh2⟩ := applyTag_not_result h0 (m.2.1, m.2.2) hk
      unfold foldTags
      rw [hh2]
      exact ih h2 w h

/-- Without any bad `Result` value the fold succeeds, and the final `white`
and `black` fields are the last respectively-keyed tag values. -/
lemma foldTags_good : ∀ (ms : List (Nat × Str × Str)) (h0 : PgnHeaders),
    firstResultError ms = none →
      ∃ h, foldTags h0 ms = .ok h ∧
        h.white = lastKeyed "white".toList h0.white ms ∧
        h.black = lastKeyed "black".toList h0.black ms := by
  intro ms
  induction ms with
  | nil => intro h0 _; exact ⟨h0, rfl, rfl, rfl⟩
  | cons m ms ih =>
    intro h0 h
    unfold firstResultError at h
    have step : ∃ h2, applyTag h0 (m.2.1, m.2.2) = .ok h2 ∧
        firstResultError ms = none := by
      by_cases hk : lowerStr m.2.1 = "result".toList
      · rw [if_pos hk] at h
        by_cases hc : isCanonicalResult (trimStr m.2.2) = true
        · rw [if_pos hc] at h
          obtain ⟨h2, hh2⟩ := applyTag_result_good h0 (m.2.1, m.2.2) hk hc
          exact ⟨h2, hh2, h⟩
        · rw [if_neg hc] at h; cases h
      · rw [if_neg hk] at h
        obtain ⟨h2, hh2⟩ := applyTag_not_result h0 (m.2.1, m.2.2) hk
        exact ⟨h2, hh2, h⟩
    obtain ⟨h2, hh2, hrest⟩ := step
    obtain ⟨hf, hhf, hw, hb⟩ := ih h2 hrest
    obtain ⟨hw2, hb2⟩ := applyTag_fields h0 (m.2.1, m.2.2) h2 hh2
    refine ⟨hf, ?_, ?_, ?_⟩
    · unfold foldTags
      rw [hh2]
      exact hhf
    · rw [hw, hw2]
      rfl
    · rw [hb, hb2]
      rfl

/-- Scanning the empty input yields no matches. -/
lemma tagMatches_nil : tagMatches ([] : Str) = [] := rfl

/-- A bad `Result` tag anywhere in the scan makes `parse_headers` fail with
`InvalidResult`. -/
lemma parse_headers_bad (p : Str) (w : Str)
    (h : firstResultError (tagMatches p) = some w) :
    parse_headers p = .error (.InvalidResult w) := by
  unfold parse_headers
  rw [foldTags_bad (tagMatches p) {} w h]

/-- A bad `Result` tag in the scan of the trimmed input makes `parse_pgn`
fail with `InvalidResult`. -/
lemma parse_pgn_bad (s : Str) (w : Str)
    (h : firstResultError (tagMatches (trimStr s)) = some w) :
    parse_pgn s = .error (.InvalidResult w) := by
  have hne : trimStr s ≠ [] := by
    intro he
    rw [he, tagMatches_nil] at h
    simp [firstResultError] at h
  simp [parse_pgn, hne, parse_headers_bad (trimStr s) w h]

/-- A non-canonical `result`-keyed tag in the list forces
`firstResultError` to produce a value. -/
lemma firstResultError_of_mem :
    ∀ (ms : List (Nat × Str × Str)) (m : Nat × Str × Str), m ∈ ms →
      lowerStr m.2.1 = "result".toList →
      isCanonicalResult (trimStr m.2.2) = false →
      ∃ w, firstResultError ms = some w := by
  intro ms
  induction ms with
  | nil => intro m hm _ _; simp at hm
  | cons m0 ms ih =>
    intro m hm hk hc
    unfold firstResultError
    by_cases hk0 : lowerStr m0.2.1 = "result".toList
    · rw [if_pos hk0]
      by_cases hc0 : isCanonicalResult (trimStr m0.2.2) = true
      · rw [if_pos hc0]
        rcases List.mem_cons.mp hm with he | hmem
        · rw [he] at hc; rw [hc] at hc0; cases hc0
        · exact ih m hmem hk hc
      · rw [if_neg hc0]; exact ⟨_, rfl⟩
    · rw [if_neg hk0]
      rcases List.mem_cons.mp hm with he | hmem
      · rw [he] at hk; exact absurd hk hk0
      · exact ih m hmem hk hc

/-- The value produced by `firstResultError` is the trimmed value of an
actual non-canonical `result`-keyed tag of the list. -/
lemma firstResultError_spec :
    ∀ (ms : List (Nat × Str × Str)) (w : Str), firstResultError ms = some w →
      ∃ m ∈ ms, lowerStr m.2.1 = "result".toList ∧ w = trimStr m.2.2 ∧
        isCanonicalResult w = false := by
  intro ms
  induction ms with
  | nil => intro w h; simp [firstResultError] at h
  | cons m0 ms ih =>
    intro w h
    unfold firstResultError at h
    by_cases hk0 : lowerStr m0.2.1 = "result".toList
    · rw [if_pos hk0] at h
      by_cases hc0 : isCanonicalResult (trimStr m0.2.2) = true
      · rw [if_pos hc0] at h
        obtain ⟨m, hm, hrest⟩ := ih w h
        exact ⟨m, List.mem_cons_of_mem m0 hm, hrest⟩
      · rw [if_neg hc0] at h
        cases h
        refine ⟨m0, List.mem_cons_self m0 ms, hk0, rfl, ?_⟩
        exact Bool.not_eq_true _ ▸ hc0
    · rw [if_neg hk0] at h
      obtain ⟨m, hm, hrest⟩ := ih w h
      exact ⟨m, List.mem_cons_of_mem m0 hm, hrest⟩

/-- The fold of `tagBoundary` returns the end offset of the last match. -/
lemma foldl_last_end :
    ∀ (l : List (Nat × Str × Str)) (a : Nat) (hne : l ≠ []),
      l.foldl (fun _ m => m.1) a = (l.getLast hne).1 := by
  intro l
  induction l with
  | nil => intro a hne; exact absurd rfl hne
  | cons m ms ih =>
    intro a hne
    cases ms with
    | nil => rfl
    | cons m2 ms2 =>
      rw [List.foldl_cons, List.getLast_cons (by simp)]
      exact ih m.1 (by simp)

/-- C2 (amended): the move text handed to the tokenizer is the suffix at the
end offset of the last tag-shaped match over the WHOLE input — tag-shaped
substrings inside the move text do move this boundary (see the
counterexample). -/
theorem claim_C2 (s : Str) (hs : PgnHeaders × Str)
    (hok : parse_headers s = .ok hs) :
    hs.2 = s.drop (tagBoundary s) ∧
    ∀ hne : tagMatches s ≠ [],
      tagBoundary s = ((tagMatches s).getLast hne).1 := by
  constructor
  · cases hf : foldTags {} (tagMatches s) with
    | error e => simp [parse_headers, hf] at hok
    | ok h =>
      by_cases hw : h.white = []
      · simp [parse_headers, hf, hw] at hok
      · by_cases hb : h.black = []
        · simp [parse_headers, hf, hw, hb] at hok
        · simp only [parse_headers, hf, if_neg hw, if_neg hb] at hok
          cases hok
          rfl
  · intro hne
    exact foldl_last_end (tagMatches s) 0 hne

/-- C2, counterexample to the claim as stated: in `c2cxIn` the last tag
before the move text is `[Black \"B\"]`, yet the tokenizer receives only
`\x7d e5` — the tag-shaped `[Foo \"bar\"]` inside the move-text comment moved
the boundary past `1. e4`, and `Foo` landed in the headers. -/
theorem claim_C2_counterexample :
    parse_headers c2cxIn = .ok (c2cxHdrs, "\x7d e5".toList) ∧
    parse_pgn c2cxIn =
      .ok { headers := c2cxHdrs, moves := ["\x7d".toList, "e5".toList],
            final_fen := [], ply_count := 0 } := by
  refine ⟨by decide, by decide⟩

/-- C2 witness: on `c2wIn` the suffix after the boundary is ` 1. e4`. -/
theorem claim_C2_witness :
    parse_headers c2wIn =
      .ok ({ white := "A".toList, black := "B".toList }, " 1. e4".toList) ∧
    (" 1. e4".toList : Str) = c2wIn.drop (tagBoundary c2wIn) :=
  ⟨by decide,
    (claim_C2 c2wIn ({ white := "A".toList, black := "B".toList },
      " 1. e4".toList) (by decide)).1⟩

/-- C6 (confirmed): a `Result` tag whose trimmed value is not canonical makes
parsing fail with `InvalidResult` carrying the trimmed value of the first
such tag. -/
theorem claim_C6 (s : Str)
    (h : ∃ m ∈ tagMatches (trimStr s), lowerStr m.2.1 = "result".toList ∧
      isCanonicalResult (trimStr m.2.2) = false) :
    ∃ w, parse_pgn s = .error (.InvalidResult w) ∧
      ∃ m ∈ tagMatches (trimStr s), lowerStr m.2.1 = "result".toList ∧
        w = trimStr m.2.2 ∧ isCanonicalResult w = false := by
  obtain ⟨m, hm, hk, hc⟩ := h
  obtain ⟨w, hw⟩ := firstResultError_of_mem _ m hm hk hc
  exact ⟨w, parse_pgn_bad s w hw, firstResultError_spec _ w hw⟩

/-- C6 witness: the non-canonical result value `2-0` is rejected. -/
theorem claim_C6_witness :
    (∃ m ∈ tagMatches (trimStr c6In), lowerStr m.2.1 = "result".toList ∧
      isCanonicalResult (trimStr m.2.2) = false) ∧
    (∃ w, parse_pgn c6In = .error (.InvalidResult w) ∧
      ∃ m ∈ tagMatches (trimStr c6In), lowerStr m.2.1 = "result".toList ∧
        w = trimStr m.2.2 ∧ isCanonicalResult w = false) :=
  ⟨by decide, claim_C6 c6In (by decide)⟩

/-- C7 (amended): on a non-empty input with no bad `Result` value, a missing
(or empty-valued, hence unscanned) `White` or `Black` tag makes parsing fail
with `MissingHeader`, naming `White` when White is the missing one and
`Black` otherwise.  (With a bad `Result` value or an all-whitespace input,
`InvalidResult` resp. `EmptyPgn` preempts — see the counterexample.) -/
theorem claim_C7 (s : Str)
    (hne : trimStr s ≠ [])
    (hres : firstResultError (tagMatches (trimStr s)) = none)
    (hmiss : lastKeyed "white".toList [] (tagMatches (trimStr s)) = [] ∨
      lastKeyed "black".toList [] (tagMatches (trimStr s)) = []) :
    parse_pgn s = .error (.MissingHeader
      (if lastKeyed "white".toList [] (tagMatches (trimStr s)) = []
        then "White".toList else "Black".toList)) := by
  obtain ⟨h, hh, hw, hb⟩ := foldTags_good (tagMatches (trimStr s)) {} hres
  by_cases hwm : lastKeyed "white".toList [] (tagMatches (trimStr s)) = []
  · have hwe : h.white = [] := by rw [hw]; exact hwm
    rw [if_pos hwm]
    simp [parse_pgn, hne, parse_headers, hh, hwe]
  · rcases hmiss with hc | hc
    · exact absurd hc hwm
    · have hwne : h.white ≠ [] := by rw [hw]; exact hwm
      have hbe : h.black = [] := by rw [hb]; exact hc
      rw [if_neg hwm]
      simp [parse_pgn, hne, parse_headers, hh, hwne, hbe]

/-- C7, counterexample to the claim as stated: with the White tag absent the
claim demands `MissingHeader`, but the non-canonical `Result` value is
detected during the scan, so parsing fails with `InvalidResult` instead. -/
theorem claim_C7_counterexample :
    lastKeyed "white".toList [] (tagMatches (trimStr c7cxIn)) = [] ∧
    parse_pgn c7cxIn = .error (.InvalidResult "2-0".toList) := by
  refine ⟨by decide, by decide⟩

/-- C7 witness: with no `Result` tag and `White` missing, parsing fails with
`MissingHeader \"White\"`. -/
theorem claim_C7_witness :
    trimStr c7wIn ≠ [] ∧
    firstResultError (tagMatches (trimStr c7wIn)) = none ∧
    lastKeyed "white".toList [] (tagMatches (trimStr c7wIn)) = [] ∧
    parse_pgn c7wIn = .error (.MissingHeader
      (if lastKeyed "white".toList [] (tagMatches (trimStr c7wIn)) = []
        then "White".toList else "Black".toList)) :=
  ⟨by decide, by decide, by decide,
    claim_C7 c7wIn (by decide) (by decide) (Or.inl (by decide))⟩

/-- C10 (confirmed): when a non-canonical `Result` value coexists with a
missing `White` or `Black` tag, parsing fails with `InvalidResult`, not
`MissingHeader` — the result value is checked during the tag scan, before
the required-header check. -/
theorem claim_C10 (s : Str) (w : Str)
    (hres : firstResultError (tagMatches (trimStr s)) = some w)
    (_hmiss : lastKeyed "white".toList [] (tagMatches (trimStr s)) = [] ∨
      lastKeyed "black".toList [] (tagMatches (trimStr s)) = []) :
    parse_pgn s = .error (.InvalidResult w) :=
  parse_pgn_bad s w hres

/-- C10 witness: `White` and `Black` are both missing, yet the bad result
value `0-2` is what parsing reports. -/
theorem claim_C10_witness :
    firstResultError (tagMatches (trimStr c10In)) = some "0-2".toList ∧
    lastKeyed "white".toList [] (tagMatches (trimStr c10In)) = [] ∧
    parse_pgn c10In = .error (.InvalidResult "0-2".toList) :=
  ⟨by decide, by decide,
    claim_C10 c10In "0-2".toList (by decide) (Or.inl (by decide))⟩

/-- Whitespace characters are not word characters. -/
lemma ws_not_word (c : Char) (h : isWs c = true) : isWordChar c = false := by
  unfold isWs at h
  rcases (by simpa using h :
      ((c = ' ' ∨ c = '\t') ∨ c = '\n') ∨ c = '\r') with
    ((h1 | h1) | h1) | h1 <;> subst h1 <;> decide

/-- `takeWhile`/`dropWhile` on a full run followed by a stopper. -/
lemma run_span {p : Char → Bool} :
    ∀ (A : Str) (c : Char) (B : Str), (∀ x ∈ A, p x = true) → p c = false →
      (A ++ c :: B).takeWhile p = A ∧ (A ++ c :: B).dropWhile p = c :: B := by
  intro A
  induction A with
  | nil =>
    intro c B _ hc
    simp [List.takeWhile_cons, List.dropWhile_cons, hc]
  | cons a A ih =>
    intro c B hA hc
    have ha : p a = true := hA a (by simp)
    obtain ⟨h1, h2⟩ := ih c B (fun x hx => hA x (by simp [hx])) hc
    simp [List.takeWhile_cons, List.dropWhile_cons, ha, h1, h2]

/-- A string of canonical tag shape produces an anchored match with the
expected captures and consumed length. -/
lemma matchTagAt_shape (k sp v tail : Str)
    (hk : k ≠ []) (hkw : ∀ c ∈ k, isWordChar c = true)
    (hsp : sp ≠ []) (hspw : ∀ c ∈ sp, isWs c = true)
    (hv : v ≠ []) (hvq : ∀ c ∈ v, ¬(c = '"')) :
    matchTagAt (tagShape k sp v tail) =
      some (k, v, 1 + k.length + sp.length + 1 + v.length + 2) := by
  obtain ⟨s0, sp', rfl⟩ : ∃ s0 sp', sp = s0 :: sp' := by
    cases sp with
    | nil => exact absurd rfl hsp
    | cons a b => exact ⟨a, b, rfl⟩
  have hrun1 := run_span (p := isWordChar) k s0
    (sp' ++ ('"' :: (v ++ ('"' :: (']' :: tail))))) hkw
    (ws_not_word s0 (hspw s0 (by simp)))
  have hrun2 := run_span (p := isWs) (s0 :: sp') '"'
    (v ++ ('"' :: (']' :: tail))) hspw (by decide)
  have hvq2 : ∀ c ∈ v, (fun c => decide (c ≠ '"')) c = true := by
    intro c hc
    simpa using hvq c hc
  have hrun3 := run_span (p := fun c => decide (c ≠ '"')) v '"'
    (']' :: tail) hvq2 (by decide)
  show matchTagAt ('[' ::
    (k ++ ((s0 :: sp') ++ ('"' :: (v ++ ('"' :: (']' :: tail))))))) = _
  have e1 : k ++ ((s0 :: sp') ++ ('"' :: (v ++ ('"' :: (']' :: tail))))) =
      k ++ (s0 :: (sp' ++ ('"' :: (v ++ ('"' :: (']' :: tail)))))) := by
    simp
  rw [e1]
  simp only [matchTagAt, eq_self_iff_true, if_true]
  rw [hrun1.1, hrun1.2, if_neg hk]
  have e2 : s0 :: (sp' ++ ('"' :: (v ++ ('"' :: (']' :: tail))))) =
      (s0 :: sp') ++ ('"' :: (v ++ ('"' :: (']' :: tail)))) := by
    simp
  rw [e2, hrun2.1, hrun2.2, if_neg (by simp : ¬(s0 :: sp' = []))]
  simp only [eq_self_iff_true, if_true]
  rw [hrun3.1, hrun3.2, if_neg hv]
  simp [List.length_cons]

/-- An anchored match decomposes its input into the canonical tag shape. -/
lemma matchTagAt_some_shape (m : Str) (k v : Str) (n : Nat)
    (h : matchTagAt m = some (k, v, n)) :
    ∃ sp tail, m = tagShape k sp v tail ∧
      k ≠ [] ∧ (∀ c ∈ k, isWordChar c = true) ∧
      sp ≠ [] ∧ (∀ c ∈ sp, isWs c = true) ∧
      v ≠ [] ∧ (∀ c ∈ v, ¬(c = '"')) ∧
      n = 1 + k.length + sp.length + 1 + v.length + 2 := by
  cases m with
  | nil => simp [matchTagAt] at h
  | cons c0 r1 =>
    by_cases hc0 : c0 = '['
    case neg => simp [matchTagAt, hc0] at h
    subst hc0
    simp only [matchTagAt, if_pos rfl] at h
    by_cases hkey : r1.takeWhile isWordChar = []
    case pos => rw [if_pos hkey] at h; cases h
    rw [if_neg hkey] at h
    by_cases hsp : (r1.dropWhile isWordChar).takeWhile isWs = []
    case pos => rw [if_pos hsp] at h; cases h
    rw [if_neg hsp] at h
    cases hr3 : (r1.dropWhile isWordChar).dropWhile isWs with
    | nil => rw [hr3] at h; cases h
    | cons c3 r4 =>
      rw [hr3] at h
      dsimp only at h
      by_cases hc3 : c3 = '"'
      case neg => rw [if_neg hc3] at h; cases h
      subst hc3
      rw [if_pos rfl] at h
      by_cases hval : r4.takeWhile (fun c => c ≠ '"') = []
      case pos => rw [if_pos hval] at h; cases h
      rw [if_neg hval] at h
      cases hr5 : r4.dropWhile (fun c => c ≠ '"') with
      | nil => rw [hr5] at h; cases h
      | cons c5 r6 =>
        cases r6 with
        | nil => rw [hr5] at h; cases h
        | cons c6 tail =>
          rw [hr5] at h
          dsimp only at h
          by_cases hc56 : c5 = '"' ∧ c6 = ']'
          case neg => rw [if_neg hc56] at h; cases h
          rw [if_pos hc56] at h
          obtain ⟨hc5, hc6⟩ := hc56
          subst hc5
          subst hc6
          cases h
          refine ⟨(r1.dropWhile isWordChar).takeWhile isWs, tail, ?_,
            hkey, ?_, hsp, ?_, hval, ?_, rfl⟩
          · show '[' :: r1 = tagShape _ _ _ _
            unfold tagShape
            conv =>
              lhs
              rw [(List.takeWhile_append_dropWhile isWordChar r1).symm]
              rw [(List.takeWhile_append_dropWhile isWs
                (r1.dropWhile isWordChar)).symm]
              rw [hr3]
              rw [(List.takeWhile_append_dropWhile (fun c => decide (c ≠ '"'))
                r4).symm]
              rw [hr5]
          · intro c hc
            exact List.mem_takeWhile_imp hc
          · intro c hc
            exact List.mem_takeWhile_imp hc
          · intro c hc
            simpa using List.mem_takeWhile_imp hc

/-- An anchored match is preserved (captures and length unchanged) by
appending anything, and consumes at most the original string. -/
lemma matchTagAt_extend (l X : Str) (k v : Str) (n : Nat)
    (h : matchTagAt l = some (k, v, n)) :
    matchTagAt (l ++ X) = some (k, v, n) ∧ n ≤ l.length := by
  obtain ⟨sp, tail, hshape, hk, hkw, hsp, hspw, hv, hvq, hn⟩ :=
    matchTagAt_some_shape l k v n h
  constructor
  · have : l ++ X = tagShape k sp v (tail ++ X) := by
      rw [hshape]
      simp [tagShape]
    rw [this, matchTagAt_shape k sp v (tail ++ X) hk hkw hsp hspw hv hvq, hn]
  · rw [hshape, hn]
    simp [tagShape]
    omega

/-- Appending a quote-free list whose head is not `]` cannot create an
anchored match where there was none. -/
lemma matchTagAt_append_none (l X : Str)
    (hq : '"' ∉ X) (hh : X.head? ≠ some ']')
    (h : matchTagAt l = none) : matchTagAt (l ++ X) = none := by
  cases hm : matchTagAt (l ++ X) with
  | none => rfl
  | some x =>
    exfalso
    obtain ⟨k, v, n⟩ := x
    obtain ⟨sp, tail, hshape, hk, hkw, hsp, hspw, hv, hvq, hn⟩ :=
      matchTagAt_some_shape (l ++ X) k v n hm
    have hQ : l ++ X =
        ('[' :: (k ++ (sp ++ ('"' :: v)))) ++ ('"' :: (']' :: tail)) := by
      rw [hshape]
      simp [tagShape]
    set Q : Str := '[' :: (k ++ (sp ++ ('"' :: v))) with hQdef
    rcases Nat.lt_or_ge Q.length l.length with hlen | hlen
    · rcases Nat.lt_or_ge (Q.length + 1) l.length with hlen2 | hlen2
      · -- the whole match sits inside l, so l itself matches
        have hnQ : n = Q.length + 2 := by
          rw [hn, hQdef]
          simp only [List.length_cons, List.length_append]
          omega
        have hnl : n ≤ l.length := by omega
        have hPlen : ((Q ++ ['"', ']']) : Str).length = n := by
          simp [hnQ]
        have hQ2 : l ++ X = (Q ++ ['"', ']']) ++ tail := by
          rw [hQ]
          simp
        have h1 : (l ++ X).take n = Q ++ ['"', ']'] := by
          rw [hQ2, ← hPlen, List.take_left]
        have h2 : (l ++ X).take n = l.take n :=
          List.take_append_of_le_length hnl
        have hl2 : l = tagShape k sp v (l.drop n) := by
          conv =>
            lhs
            rw [← List.take_append_drop n l]
          rw [← h2, h1]
          simp [tagShape, hQdef]
        have hmatch := matchTagAt_shape k sp v (l.drop n)
          hk hkw hsp hspw hv hvq
        rw [← hl2] at hmatch
        rw [hmatch] at h
        cases h
      · -- the closing bracket would be the head of X
        have hlen3 : l.length = Q.length + 1 := by omega
        have hX : X = ']' :: tail := by
          have e1 : (Q ++ ['"']).length = l.length := by
            simp [hlen3]
          have e2 : l ++ X = (Q ++ ['"']) ++ (']' :: tail) := by
            rw [hQ]
            simp
          calc X = (l ++ X).drop l.length := (List.drop_left l X).symm
            _ = ']' :: tail := by
              rw [e2, ← e1, List.drop_left]
        apply hh
        rw [hX]
        rfl
    · -- the closing quote would lie inside X
      have hX : X = Q.drop l.length ++ ('"' :: (']' :: tail)) := by
        calc X = (l ++ X).drop l.length := (List.drop_left l X).symm
          _ = _ := by rw [hQ, List.drop_append_of_le_length hlen]
      apply hq
      rw [hX]
      exact List.mem_append.mpr (Or.inr (by simp))

/-- A successful anchored match consumes at least one character. -/
lemma matchTagAt_pos (l : Str) (k v : Str) (n : Nat)
    (h : matchTagAt l = some (k, v, n)) : 1 ≤ n := by
  obtain ⟨sp, tail, _, _, _, _, _, _, _, hn⟩ :=
    matchTagAt_some_shape l k v n h
  omega

/-- A quote-free string contains no anchored match. -/
lemma matchTagAt_no_quote (l : Str) (hq : '"' ∉ l) : matchTagAt l = none := by
  cases hm : matchTagAt l with
  | none => rfl
  | some x =>
    exfalso
    obtain ⟨k, v, n⟩ := x
    obtain ⟨sp, tail, hshape, _⟩ := matchTagAt_some_shape l k v n hm
    apply hq
    rw [hshape]
    unfold tagShape
    simp

/-- The scan of a quote-free string finds nothing. -/
lemma tagScanAux_no_quote :
    ∀ (fuel : Nat) (l : Str) (pos : Nat), '"' ∉ l →
      tagScanAux fuel l pos = [] := by
  intro fuel
  induction fuel with
  | zero => intro l pos _; rfl
  | succ fuel ih =>
    intro l pos hq
    cases l with
    | nil => rfl
    | cons c rest =>
      have hm := matchTagAt_no_quote (c :: rest) hq
      simp only [tagScanAux, hm]
      exact ih rest (pos + 1) (fun hmem => hq (by simp [hmem]))

/-- Appending a quote-free list whose head is not `]` changes neither the
matches nor their offsets, for adequate fuel. -/
lemma tagScanAux_append :
    ∀ (fuel : Nat) (l X : Str) (pos : Nat), '"' ∉ X →
      X.head? ≠ some ']' → l.length ≤ fuel →
      tagScanAux (fuel + X.length) (l ++ X) pos = tagScanAux fuel l pos := by
  intro fuel
  induction fuel with
  | zero =>
    intro l X pos hq hh hf
    have hl : l = [] := List.length_eq_zero.mp (Nat.le_zero.mp hf)
    subst hl
    rw [List.nil_append, Nat.zero_add,
      tagScanAux_no_quote X.length X pos hq]
    rfl
  | succ fuel ih =>
    intro l X pos hq hh hf
    cases l with
    | nil =>
      rw [List.nil_append]
      exact tagScanAux_no_quote (fuel + 1 + X.length) X pos hq
    | cons c rest =>
      have hstep : fuel + 1 + X.length = (fuel + X.length) + 1 := by omega
      cases hm : matchTagAt (c :: rest) with
      | some x =>
        obtain ⟨k, v, n⟩ := x
        obtain ⟨hm2, hn⟩ := matchTagAt_extend (c :: rest) X k v n hm
        have hpos := matchTagAt_pos (c :: rest) k v n hm
        have hdrop : (c :: rest ++ X).drop n = (c :: rest).drop n ++ X :=
          List.drop_append_of_le_length hn
        have hlen : ((c :: rest).drop n).length ≤ fuel := by
          simp only [List.length_drop, List.length_cons]
          simp only [List.length_cons] at hf
          omega
        rw [hstep]
        rw [List.cons_append]
        simp only [tagScanAux]
        rw [← List.cons_append]
        simp only [hm2, hm, hdrop]
        rw [ih ((c :: rest).drop n) X (pos + n) hq hh hlen]
      | none =>
        have hm2 := matchTagAt_append_none (c :: rest) X hq hh hm
        rw [hstep]
        rw [List.cons_append]
        simp only [tagScanAux]
        rw [← List.cons_append]
        simp only [hm2, hm]
        have hlen : rest.length ≤ fuel := by
          simp only [List.length_cons] at hf
          omega
        exact ih rest X (pos + 1) hq hh hlen

/-- Appending quote-free text whose head is not `]` leaves `tagMatches`
unchanged. -/
lemma tagMatches_append (l X : Str) (hq : '"' ∉ X)
    (hh : X.head? ≠ some ']') : tagMatches (l ++ X) = tagMatches l := by
  unfold tagMatches
  rw [List.length_append]
  exact tagScanAux_append l.length l X 0 hq hh (Nat.le_refl _)

/-- The brace pass copies brace-free text. -/
lemma stripCurlyGo_copy : ∀ (A Y : Str), (∀ c ∈ A, ¬(c = '{')) →
    stripCurlyGo false (A ++ Y) = A ++ stripCurlyGo false Y := by
  intro A
  induction A with
  | nil => intro Y _; rfl
  | cons a A ih =>
    intro Y hA
    have ha : ¬(a = '{') := hA a (by simp)
    simp only [List.cons_append]
    simp only [stripCurlyGo]
    rw [if_neg (by simp [ha])]
    show a :: stripCurlyGo false (A ++ Y) = a :: (A ++ stripCurlyGo false Y)
    rw [ih Y (fun c hc => hA c (by simp [hc]))]

/-- The brace pass leaves brace-free text unchanged. -/
lemma stripCurly_id (l : Str) (h : ∀ c ∈ l, ¬(c = '{')) :
    stripCurly l = l := by
  have h2 := stripCurlyGo_copy l [] h
  simpa [stripCurly, stripCurlyGo] using h2

/-- One non-brace character passes through the brace pass. -/
lemma stripCurlyGo_cons (c : Char) (Y : Str) (hc : ¬(c = '{')) :
    stripCurlyGo false (c :: Y) = c :: stripCurlyGo false Y := by
  simp only [stripCurlyGo]
  rw [if_neg (by simp [hc])]

/-- Inside a comment, the brace pass skips to the closing brace. -/
lemma stripCurlyGo_skip : ∀ (body Y : Str), (∀ c ∈ body, ¬(c = '}')) →
    stripCurlyGo true (body ++ ('}' :: Y)) = stripCurlyGo false Y := by
  intro body
  induction body with
  | nil =>
    intro Y _
    simp [stripCurlyGo]
  | cons b body ih =>
    intro Y hb
    have hbne : ¬(b = '}') := hb b (by simp)
    simp only [List.cons_append]
    simp only [stripCurlyGo]
    rw [if_neg (by simp [hbne])]
    exact ih Y (fun c hc => hb c (by simp [hc]))

/-- A whole brace comment is replaced by a single space. -/
lemma stripCurlyGo_comment (body Y : Str) (hb : ∀ c ∈ body, ¬(c = '}')) :
    stripCurlyGo false ('{' :: (body ++ ('}' :: Y))) =
      ' ' :: stripCurlyGo false Y := by
  have hcontains : (body ++ ('}' :: Y)).contains '}' = true := by
    simp
  simp only [stripCurlyGo]
  rw [if_pos (by simp [hcontains])]
  rw [stripCurlyGo_skip body Y hb]

/-- The semicolon pass leaves semicolon-free text unchanged. -/
lemma stripSemi_id : ∀ (l : Str), (∀ c ∈ l, ¬(c = ';')) →
    stripSemiGo false l = l := by
  intro l
  induction l with
  | nil => intro _; rfl
  | cons a l ih =>
    intro h
    have ha : ¬(a = ';') := h a (by simp)
    simp only [stripSemiGo]
    rw [if_neg (by simp [ha])]
    rw [ih (fun c hc => h c (by simp [hc]))]

/-- The NAG pass leaves dollar-free text unchanged. -/
lemma stripNags_id : ∀ (l : Str), (∀ c ∈ l, ¬(c = '$')) →
    stripNagsGo false l = l := by
  intro l
  induction l with
  | nil => intro _; rfl
  | cons a l ih =>
    intro h
    have ha : ¬(a = '$') := h a (by simp)
    simp only [stripNagsGo]
    rw [if_neg (by simp [ha])]
    rw [ih (fun c hc => h c (by simp [hc]))]

/-- The variation pass leaves parenthesis-free text unchanged. -/
lemma stripParens_id : ∀ (l : Str), (∀ c ∈ l, ¬(c = '(')) →
    stripParensGo false l = l := by
  intro l
  induction l with
  | nil => intro _; rfl
  | cons a l ih =>
    intro h
    have ha : ¬(a = '(') := h a (by simp)
    simp only [stripParensGo]
    rw [if_neg (by simp [ha])]
    rw [ih (fun c hc => h c (by simp [hc]))]

/-- Whitespace splitting distributes over a space separator. -/
lemma splitWsAux_append : ∀ (A Y : Str) (acc : Str),
    splitWsAux acc (A ++ (' ' :: Y)) = splitWsAux acc A ++ splitWs Y := by
  intro A
  induction A with
  | nil =>
    intro Y acc
    by_cases hacc : acc = []
    · simp [splitWsAux, hacc, splitWs, isWs]
    · simp [splitWsAux, hacc, splitWs, isWs]
  | cons a A ih =>
    intro Y acc
    by_cases hws : isWs a = true
    · by_cases hacc : acc = []
      · simp [splitWsAux, hws, hacc, ih]
      · simp [splitWsAux, hws, hacc, ih]
    · simp [splitWsAux, hws, ih]

/-- Leading whitespace is dropped by the splitter. -/
lemma splitWs_ws_cons (Y : Str) : splitWs (' ' :: Y) = splitWs Y := by
  simp [splitWs, splitWsAux, isWs]

/-- One character that is not a closing brace is dropped by the brace pass in
its skip state. -/
lemma stripCurlyGo_true_cons (c : Char) (X : Str) (hc : ¬(c = '}')) :
    stripCurlyGo true (c :: X) = stripCurlyGo true X := by
  simp only [stripCurlyGo]
  rw [if_neg hc]

/-- In the skip state, the brace pass drops closer-free text. -/
lemma stripCurlyGo_drop : ∀ (A X : Str), (∀ c ∈ A, ¬(c = '}')) →
    stripCurlyGo true (A ++ X) = stripCurlyGo true X := by
  intro A
  induction A with
  | nil => intro X _; rfl
  | cons a A ih =>
    intro X hA
    rw [List.cons_append, stripCurlyGo_true_cons a _ (hA a (by simp))]
    exact ih X (fun c hc => hA c (by simp [hc]))

/-- One non-semicolon character passes through the semicolon pass. -/
lemma stripSemiGo_cons (c : Char) (X : Str) (hc : ¬(c = ';')) :
    stripSemiGo false (c :: X) = c :: stripSemiGo false X := by
  simp only [stripSemiGo]
  rw [if_neg hc]

/-- One non-newline character is dropped by the semicolon pass in its skip
state. -/
lemma stripSemiGo_true_cons (c : Char) (X : Str) (hc : ¬(c = '\n')) :
    stripSemiGo true (c :: X) = stripSemiGo true X := by
  simp only [stripSemiGo]
  rw [if_neg hc]

/-- The semicolon pass copies semicolon-free text in the copy state. -/
lemma stripSemiGo_copy : ∀ (A X : Str), (∀ c ∈ A, ¬(c = ';')) →
    stripSemiGo false (A ++ X) = A ++ stripSemiGo false X := by
  intro A
  induction A with
  | nil => intro X _; rfl
  | cons a A ih =>
    intro X hA
    rw [List.cons_append, stripSemiGo_cons a _ (hA a (by simp)), List.cons_append]
    rw [ih X (fun c hc => hA c (by simp [hc]))]

/-- In the skip state, the semicolon pass drops newline-free text. -/
lemma stripSemiGo_skip : ∀ (A X : Str), (∀ c ∈ A, ¬(c = '\n')) →
    stripSemiGo true (A ++ X) = stripSemiGo true X := by
  intro A
  induction A with
  | nil => intro X _; rfl
  | cons a A ih =>
    intro X hA
    rw [List.cons_append, stripSemiGo_true_cons a _ (hA a (by simp))]
    exact ih X (fun c hc => hA c (by simp [hc]))

/-- `afterFirst` decomposes its input at the first occurrence. -/
lemma afterFirst_decomp : ∀ (l r : Str) (t : Char), afterFirst t l = some r →
    ∃ pre, l = pre ++ (t :: r) ∧ ∀ c ∈ pre, ¬(c = t) := by
  intro l
  induction l with
  | nil => intro r t h; cases h
  | cons c rest ih =>
    intro r t h
    simp only [afterFirst] at h
    by_cases hc : c = t
    · rw [if_pos hc] at h
      exact ⟨[], by simp [hc, Option.some.inj h], by simp⟩
    · rw [if_neg hc] at h
      obtain ⟨pre, hdec, hpre⟩ := ih r t h
      refine ⟨c :: pre, by rw [hdec]; rfl, ?_⟩
      intro d hd
      rcases List.mem_cons.mp hd with h2 | h2
      · rw [h2]; exact hc
      · exact hpre d h2

/-- `afterFirst` shortens its input. -/
lemma afterFirst_length : ∀ (l r : Str) (t : Char), afterFirst t l = some r →
    r.length < l.length := by
  intro l
  induction l with
  | nil => intro r t h; cases h
  | cons c rest ih =>
    intro r t h
    simp only [afterFirst] at h
    by_cases hc : c = t
    · rw [if_pos hc] at h
      rw [← Option.some.inj h]
      simp only [List.length_cons]
      omega
    · rw [if_neg hc] at h
      have := ih r t h
      simp only [List.length_cons]
      omega

/-- `curlyCleanAux` is fuel-insensitive above the input length. -/
lemma curlyCleanAux_eq : ∀ (fuel : Nat) (l : Str) (fuel2 : Nat),
    l.length ≤ fuel → l.length ≤ fuel2 →
    curlyCleanAux fuel l = curlyCleanAux fuel2 l := by
  intro fuel
  induction fuel with
  | zero =>
    intro l fuel2 h1 _
    have hl : l = [] := List.length_eq_zero.mp (Nat.le_zero.mp h1)
    subst hl
    cases fuel2 <;> rfl
  | succ n ih =>
    intro l fuel2 h1 h2
    cases l with
    | nil => cases fuel2 <;> rfl
    | cons c rest =>
      cases fuel2 with
      | zero => simp at h2
      | succ m =>
        simp only [curlyCleanAux]
        by_cases hc : c = '{'
        · rw [if_pos hc, if_pos hc]
          cases haf : afterFirst '}' rest with
          | none => rfl
          | some r =>
            have hlen := afterFirst_length rest r '}' haf
            simp only [List.length_cons] at h1 h2
            exact ih r m (by omega) (by omega)
        · rw [if_neg hc, if_neg hc]
          simp only [List.length_cons] at h1 h2
          exact ih rest m (by omega) (by omega)

/-- With every comment opened in `M1` closed inside `M1`, the brace pass
splits over appending: what follows cannot change how `M1` is stripped. -/
lemma curly_split : ∀ (n : Nat) (M1 : Str), M1.length ≤ n →
    curlyClean M1 = true → ∀ R,
    stripCurlyGo false (M1 ++ R) =
      stripCurlyGo false M1 ++ stripCurlyGo false R := by
  intro n
  induction n with
  | zero =>
    intro M1 h1 _ R
    have hl : M1 = [] := List.length_eq_zero.mp (Nat.le_zero.mp h1)
    subst hl
    rfl
  | succ n ih =>
    intro M1 h1 hclean R
    cases M1 with
    | nil => rfl
    | cons c rest =>
      have hlen : rest.length ≤ n := by
        simp only [List.length_cons] at h1
        omega
      simp only [curlyClean, List.length_cons, curlyCleanAux] at hclean
      by_cases hc : c = '{'
      · subst hc
        rw [if_pos rfl] at hclean
        cases haf : afterFirst '}' rest with
        | none => simp [haf] at hclean
        | some r =>
          simp only [haf] at hclean
          obtain ⟨pre, hdec, hpre⟩ := afterFirst_decomp rest r '}' haf
          have hlenr := afterFirst_length rest r '}' haf
          have hcleanr : curlyClean r = true := by
            show curlyCleanAux r.length r = true
            rw [curlyCleanAux_eq r.length r rest.length (le_refl _) (by omega)]
            exact hclean
          subst hdec
          have hcont1 : ((pre ++ ('}' :: r)) ++ R).contains '}' = true := by
            simp
          have hcont2 : (pre ++ ('}' :: r)).contains '}' = true := by
            simp
          have hsh : (pre ++ ('}' :: r)) ++ R = pre ++ ('}' :: (r ++ R)) := by
            simp
          simp only [List.cons_append]
          simp only [stripCurlyGo]
          rw [if_pos (by simp [hcont1]), if_pos (by simp [hcont2])]
          rw [hsh, stripCurlyGo_skip pre (r ++ R) hpre,
            stripCurlyGo_skip pre r hpre, ih r (by omega) hcleanr R,
            List.cons_append]
      · rw [if_neg hc] at hclean
        have hcleanr : curlyClean rest = true := hclean
        simp only [List.cons_append]
        simp only [stripCurlyGo]
        rw [if_neg (by simp [hc]), if_neg (by simp [hc]),
          ih rest hlen hcleanr R, List.cons_append]

/-- The brace-pass lookahead cannot distinguish the two shapes when the
segment avoids the probed character. -/
lemma contains_dil (P D z : Str) (t : Char) (hD : ¬(t ∈ D)) :
    (P ++ (' ' :: (D ++ (' ' :: z)))).contains t =
      (P ++ (' ' :: z)).contains t := by
  rw [Bool.eq_iff_iff]
  simp [hD]

/-- A segment free of braces passes the brace pass undisturbed: the two
inputs either collapse to equal outputs (the insertion point lies inside a
comment) or keep the separated-segment shape. -/
lemma curly_dil (D : Str) (ho : ∀ c ∈ D, ¬(c = '{'))
    (hc : ∀ c ∈ D, ¬(c = '}')) :
    ∀ (P : Str) (b : Bool) (z : Str),
      stripCurlyGo b (P ++ (' ' :: (D ++ (' ' :: z)))) =
        stripCurlyGo b (P ++ (' ' :: z)) ∨
      ∃ Q w, stripCurlyGo b (P ++ (' ' :: (D ++ (' ' :: z)))) =
          Q ++ (' ' :: (D ++ (' ' :: w))) ∧
        stripCurlyGo b (P ++ (' ' :: z)) = Q ++ (' ' :: w) := by
  intro P
  induction P with
  | nil =>
    intro b z
    cases b with
    | false =>
      right
      refine ⟨[], stripCurlyGo false z, ?_, ?_⟩
      · simp only [List.nil_append]
        rw [stripCurlyGo_cons ' ' _ (by decide), stripCurlyGo_copy D _ ho,
          stripCurlyGo_cons ' ' _ (by decide)]
      · simp only [List.nil_append]
        rw [stripCurlyGo_cons ' ' _ (by decide)]
    | true =>
      left
      simp only [List.nil_append]
      rw [stripCurlyGo_true_cons ' ' _ (by decide)]
      rw [stripCurlyGo_drop D _ hc]
  | cons a P ih =>
    intro b z
    cases b with
    | false =>
      have hcont := contains_dil P D z '}' (fun hm => hc '}' hm rfl)
      simp only [List.cons_append]
      simp only [stripCurlyGo]
      rw [hcont]
      by_cases ha : (a = '{' && (P ++ (' ' :: z)).contains '}') = true
      · rw [if_pos ha, if_pos ha]
        rcases ih true z with he | ⟨Q, w, h1, h2⟩
        · left; rw [he]
        · right
          exact ⟨' ' :: Q, w, by rw [h1, List.cons_append],
            by rw [h2, List.cons_append]⟩
      · rw [if_neg ha, if_neg ha]
        rcases ih false z with he | ⟨Q, w, h1, h2⟩
        · left; rw [he]
        · right
          exact ⟨a :: Q, w, by rw [h1, List.cons_append],
            by rw [h2, List.cons_append]⟩
    | true =>
      simp only [List.cons_append]
      simp only [stripCurlyGo]
      by_cases ha : a = '}'
      · rw [if_pos ha, if_pos ha]
        rcases ih false z with he | ⟨Q, w, h1, h2⟩
        · left; rw [he]
        · right; exact ⟨Q, w, h1, h2⟩
      · rw [if_neg ha, if_neg ha]
        rcases ih true z with he | ⟨Q, w, h1, h2⟩
        · left; rw [he]
        · right; exact ⟨Q, w, h1, h2⟩

/-- A segment free of semicolons and newlines passes the semicolon pass
undisturbed, in the same two ways. -/
lemma semi_dil (D : Str) (hs : ∀ c ∈ D, ¬(c = ';'))
    (hn : ∀ c ∈ D, ¬(c = '\n')) :
    ∀ (P : Str) (b : Bool) (z : Str),
      stripSemiGo b (P ++ (' ' :: (D ++ (' ' :: z)))) =
        stripSemiGo b (P ++ (' ' :: z)) ∨
      ∃ Q w, stripSemiGo b (P ++ (' ' :: (D ++ (' ' :: z)))) =
          Q ++ (' ' :: (D ++ (' ' :: w))) ∧
        stripSemiGo b (P ++ (' ' :: z)) = Q ++ (' ' :: w) := by
  intro P
  induction P with
  | nil =>
    intro b z
    cases b with
    | false =>
      right
      refine ⟨[], stripSemiGo false z, ?_, ?_⟩
      · simp only [List.nil_append]
        rw [stripSemiGo_cons ' ' _ (by decide), stripSemiGo_copy D _ hs,
          stripSemiGo_cons ' ' _ (by decide)]
      · simp only [List.nil_append]
        rw [stripSemiGo_cons ' ' _ (by decide)]
    | true =>
      left
      simp only [List.nil_append]
      rw [stripSemiGo_true_cons ' ' _ (by decide)]
      rw [stripSemiGo_skip D _ hn]
  | cons a P ih =>
    intro b z
    cases b with
    | false =>
      simp only [List.cons_append]
      simp only [stripSemiGo]
      by_cases ha : a = ';'
      · rw [if_pos ha, if_pos ha]
        rcases ih true z with he | ⟨Q, w, h1, h2⟩
        · left; rw [he]
        · right
          exact ⟨' ' :: Q, w, by rw [h1, List.cons_append],
            by rw [h2, List.cons_append]⟩
      · rw [if_neg ha, if_neg ha]
        rcases ih false z with he | ⟨Q, w, h1, h2⟩
        · left; rw [he]
        · right
          exact ⟨a :: Q, w, by rw [h1, List.cons_append],
            by rw [h2, List.cons_append]⟩
    | true =>
      simp only [List.cons_append]
      simp only [stripSemiGo]
      by_cases ha : a = '\n'
      · rw [if_pos ha, if_pos ha]
        rcases ih false z with he | ⟨Q, w, h1, h2⟩
        · left; rw [he]
        · right
          exact ⟨'\n' :: Q, w, by rw [h1, List.cons_append],
            by rw [h2, List.cons_append]⟩
      · rw [if_neg ha, if_neg ha]
        rcases ih true z with he | ⟨Q, w, h1, h2⟩
        · left; rw [he]
        · right; exact ⟨Q, w, h1, h2⟩

/-- Inside a glyph's digit run, the NAG pass drops digits. -/
lemma stripNagsGo_digits : ∀ (ds X : Str), (∀ c ∈ ds, isDigitChar c = true) →
    stripNagsGo true (ds ++ X) = stripNagsGo true X := by
  intro ds
  induction ds with
  | nil => intro X _; rfl
  | cons d ds ih =>
    intro X hds
    simp only [List.cons_append]
    simp only [stripNagsGo]
    rw [if_pos (hds d (by simp))]
    exact ih X (fun c hc => hds c (by simp [hc]))

/-- The digit-head lookahead cannot see past the separating space. -/
lemma headIsDigit_dil (P : Str) (X Y : Str) :
    headIsDigit (P ++ (' ' :: X)) = headIsDigit (P ++ (' ' :: Y)) := by
  cases P with
  | nil => rfl
  | cons p P => rfl

/-- A space is copied by the NAG pass from the scan state. -/
lemma stripNagsGo_false_sp (X : Str) :
    stripNagsGo false (' ' :: X) = ' ' :: stripNagsGo false X := by
  simp only [stripNagsGo]
  rw [if_neg (by simp : ¬((' ' = '$' && headIsDigit X) = true))]

/-- A space is copied by the NAG pass from the digit-run state, ending it. -/
lemma stripNagsGo_true_sp (X : Str) :
    stripNagsGo true (' ' :: X) = ' ' :: stripNagsGo false X := by
  simp only [stripNagsGo]
  rw [if_neg (by decide : ¬(isDigitChar ' ' = true))]
  rw [if_neg (by simp : ¬((' ' = '$' && headIsDigit X) = true))]

/-- The NAG pass collapses the difference segment to a single space, leaving
a three-spaces-versus-one-space shape. -/
lemma nags_dil (D : Str) (hD : nagSeg D) :
    ∀ (P : Str) (b : Bool) (z : Str),
      ∃ Q w, stripNagsGo b (P ++ (' ' :: (D ++ (' ' :: z)))) =
          Q ++ (' ' :: (' ' :: (' ' :: w))) ∧
        stripNagsGo b (P ++ (' ' :: z)) = Q ++ (' ' :: w) := by
  intro P
  induction P with
  | nil =>
    intro b z
    refine ⟨[], stripNagsGo false z, ?_, ?_⟩
    · simp only [List.nil_append]
      have hsp : stripNagsGo b (' ' :: (D ++ (' ' :: z))) =
          ' ' :: stripNagsGo false (D ++ (' ' :: z)) := by
        cases b with
        | false => exact stripNagsGo_false_sp _
        | true => exact stripNagsGo_true_sp _
      rw [hsp]
      rcases hD with hD | ⟨ds, hDdef, hne, hds⟩
      · subst hD
        rw [show ([' '] ++ (' ' :: z) : Str) = ' ' :: (' ' :: z) from rfl]
        rw [stripNagsGo_false_sp, stripNagsGo_false_sp]
      · subst hDdef
        rw [show (('$' :: ds) ++ (' ' :: z) : Str) =
          '$' :: (ds ++ (' ' :: z)) from rfl]
        have hhd : headIsDigit (ds ++ (' ' :: z)) = true := by
          cases ds with
          | nil => cases hne rfl
          | cons d ds2 =>
            simp only [List.cons_append, headIsDigit]
            exact hds d (by simp)
        simp only [stripNagsGo]
        rw [if_pos (show (decide True && headIsDigit (ds ++ (' ' :: z))) = true
          by simp [hhd])]
        rw [stripNagsGo_digits ds _ hds, stripNagsGo_true_sp]
    · simp only [List.nil_append]
      cases b with
      | false => rw [stripNagsGo_false_sp]
      | true => rw [stripNagsGo_true_sp]
  | cons a P ih =>
    intro b z
    have hlook := headIsDigit_dil P (D ++ (' ' :: z)) z
    cases b with
    | false =>
      simp only [List.cons_append]
      simp only [stripNagsGo]
      rw [hlook]
      by_cases ha : (a = '$' && headIsDigit (P ++ (' ' :: z))) = true
      · rw [if_pos ha, if_pos ha]
        obtain ⟨Q, w, h1, h2⟩ := ih true z
        exact ⟨' ' :: Q, w, by rw [h1, List.cons_append],
          by rw [h2, List.cons_append]⟩
      · rw [if_neg ha, if_neg ha]
        obtain ⟨Q, w, h1, h2⟩ := ih false z
        exact ⟨a :: Q, w, by rw [h1, List.cons_append],
          by rw [h2, List.cons_append]⟩
    | true =>
      simp only [List.cons_append]
      simp only [stripNagsGo]
      rw [hlook]
      by_cases hd : isDigitChar a = true
      · rw [if_pos hd, if_pos hd]
        obtain ⟨Q, w, h1, h2⟩ := ih true z
        exact ⟨Q, w, h1, h2⟩
      · rw [if_neg hd, if_neg hd]
        by_cases ha : (a = '$' && headIsDigit (P ++ (' ' :: z))) = true
        · rw [if_pos ha, if_pos ha]
          obtain ⟨Q, w, h1, h2⟩ := ih true z
          exact ⟨' ' :: Q, w, by rw [h1, List.cons_append],
            by rw [h2, List.cons_append]⟩
        · rw [if_neg ha, if_neg ha]
          obtain ⟨Q, w, h1, h2⟩ := ih false z
          exact ⟨a :: Q, w, by rw [h1, List.cons_append],
            by rw [h2, List.cons_append]⟩

/-- A space does not resolve the paren lookahead. -/
lemma firstParen_sp (X : Str) :
    firstParenIsClose (' ' :: X) = firstParenIsClose X := by
  simp only [firstParenIsClose]
  rw [if_neg (by decide : ¬(' ' = ')')), if_neg (by decide : ¬(' ' = '('))]

/-- The paren lookahead cannot distinguish three spaces from one. -/
lemma firstParen_dil : ∀ (P z : Str),
    firstParenIsClose (P ++ (' ' :: (' ' :: (' ' :: z)))) =
      firstParenIsClose (P ++ (' ' :: z)) := by
  intro P
  induction P with
  | nil =>
    intro z
    simp only [List.nil_append]
    rw [firstParen_sp, firstParen_sp, firstParen_sp]
  | cons a P ih =>
    intro z
    simp only [List.cons_append]
    simp only [firstParenIsClose]
    by_cases h1 : a = ')'
    · rw [if_pos h1, if_pos h1]
    · rw [if_neg h1, if_neg h1]
      by_cases h2 : a = '('
      · rw [if_pos h2, if_pos h2]
      · rw [if_neg h2, if_neg h2]
        exact ih z

/-- A space is copied by the variation pass from the scan state. -/
lemma stripParensGo_false_sp (X : Str) :
    stripParensGo false (' ' :: X) = ' ' :: stripParensGo false X := by
  simp only [stripParensGo]
  rw [if_neg (by simp : ¬((' ' = '(' && firstParenIsClose X) = true))]

/-- A space is dropped by the variation pass inside a variation. -/
lemma stripParensGo_true_sp (X : Str) :
    stripParensGo true (' ' :: X) = stripParensGo true X := by
  simp only [stripParensGo]
  rw [if_neg (by decide : ¬(' ' = ')'))]

/-- The variation pass preserves the three-versus-one-space shape (or has
already merged the two inputs inside a variation). -/
lemma parens_dil : ∀ (P : Str) (b : Bool) (z : Str),
    stripParensGo b (P ++ (' ' :: (' ' :: (' ' :: z)))) =
      stripParensGo b (P ++ (' ' :: z)) ∨
    ∃ Q w, stripParensGo b (P ++ (' ' :: (' ' :: (' ' :: z)))) =
        Q ++ (' ' :: (' ' :: (' ' :: w))) ∧
      stripParensGo b (P ++ (' ' :: z)) = Q ++ (' ' :: w) := by
  intro P
  induction P with
  | nil =>
    intro b z
    cases b with
    | false =>
      right
      refine ⟨[], stripParensGo false z, ?_, ?_⟩
      · simp only [List.nil_append]
        rw [stripParensGo_false_sp, stripParensGo_false_sp,
          stripParensGo_false_sp]
      · simp only [List.nil_append]
        rw [stripParensGo_false_sp]
    | true =>
      left
      simp only [List.nil_append]
      rw [stripParensGo_true_sp, stripParensGo_true_sp, stripParensGo_true_sp]
  | cons a P ih =>
    intro b z
    cases b with
    | false =>
      have hlook := firstParen_dil P z
      simp only [List.cons_append]
      simp only [stripParensGo]
      rw [hlook]
      by_cases ha : (a = '(' && firstParenIsClose (P ++ (' ' :: z))) = true
      · rw [if_pos ha, if_pos ha]
        rcases ih true z with he | ⟨Q, w, h1, h2⟩
        · left; rw [he]
        · right
          exact ⟨' ' :: Q, w, by rw [h1, List.cons_append],
            by rw [h2, List.cons_append]⟩
      · rw [if_neg ha, if_neg ha]
        rcases ih false z with he | ⟨Q, w, h1, h2⟩
        · left; rw [he]
        · right
          exact ⟨a :: Q, w, by rw [h1, List.cons_append],
            by rw [h2, List.cons_append]⟩
    | true =>
      simp only [List.cons_append]
      simp only [stripParensGo]
      by_cases ha : a = ')'
      · rw [if_pos ha, if_pos ha]
        rcases ih false z with he | ⟨Q, w, h1, h2⟩
        · left; rw [he]
        · right; exact ⟨Q, w, h1, h2⟩
      · rw [if_neg ha, if_neg ha]
        rcases ih true z with he | ⟨Q, w, h1, h2⟩
        · left; rw [he]
        · right; exact ⟨Q, w, h1, h2⟩

/-- The splitter ignores the width of a whitespace run. -/
lemma splitWs_dil (Q w : Str) :
    splitWs (Q ++ (' ' :: (' ' :: (' ' :: w)))) =
      splitWs (Q ++ (' ' :: w)) := by
  have h1 : splitWs (Q ++ (' ' :: (' ' :: (' ' :: w)))) =
      splitWsAux [] Q ++ splitWs (' ' :: (' ' :: w)) :=
    splitWsAux_append Q (' ' :: (' ' :: w)) []
  have h2 : splitWs (Q ++ (' ' :: w)) = splitWsAux [] Q ++ splitWs w :=
    splitWsAux_append Q w []
  rw [h1, h2, splitWs_ws_cons, splitWs_ws_cons]

/-- From the post-brace-pass shapes, the remaining passes and the splitter
produce identical token streams. -/
lemma tok_dil (D : Str) (hD : nagSeg D) (hs : ∀ c ∈ D, ¬(c = ';'))
    (hn : ∀ c ∈ D, ¬(c = '\n')) (P z : Str) :
    splitWs (stripParens (stripNags (stripSemiGo false
        (P ++ (' ' :: (D ++ (' ' :: z))))))) =
      splitWs (stripParens (stripNags (stripSemiGo false
        (P ++ (' ' :: z))))) := by
  rcases semi_dil D hs hn P false z with he | ⟨Q, w, h1, h2⟩
  · rw [he]
  · rw [h1, h2]
    obtain ⟨Q2, w2, g1, g2⟩ := nags_dil D hD Q false w
    simp only [stripNags]
    rw [g1, g2]
    rcases parens_dil Q2 false w2 with pe | ⟨Q3, w3, p1, p2⟩
    · simp only [stripParens]
      rw [pe]
    · simp only [stripParens]
      rw [p1, p2]
      exact splitWs_dil Q3 w3

/-- Inserting a brace comment (closed, with a closer-free body) or a complete
`$`-glyph, wrapped in spaces, at a space boundary of the move text leaves the
token stream unchanged — in the comment case provided no comment opened
earlier in the move text is still unclosed at the insertion point. -/
lemma parse_moves_ins (M1 M2 S : Str)
    (hS : (∃ body, S = '{' :: (body ++ ['}']) ∧ (∀ c ∈ body, ¬(c = '}')) ∧
            curlyClean M1 = true) ∨
          (∃ ds, S = '$' :: ds ∧ ds ≠ [] ∧ ∀ c ∈ ds, isDigitChar c = true)) :
    parse_moves (M1 ++ (' ' :: (S ++ (' ' :: M2)))) =
      parse_moves (M1 ++ (' ' :: M2)) := by
  rcases hS with ⟨body, hSdef, hbody, hclean⟩ | ⟨ds, hSdef, hne, hds⟩
  · subst hSdef
    have hsplit := curly_split M1.length M1 (le_refl _) hclean
    have hins : stripCurly
        (M1 ++ (' ' :: (('{' :: (body ++ ['}'])) ++ (' ' :: M2)))) =
        stripCurlyGo false M1 ++
          (' ' :: (' ' :: (' ' :: stripCurlyGo false M2))) := by
      rw [show ('{' :: (body ++ ['}'])) ++ (' ' :: M2) =
          '{' :: (body ++ ('}' :: (' ' :: M2))) by simp]
      show stripCurlyGo false
        (M1 ++ (' ' :: ('{' :: (body ++ ('}' :: (' ' :: M2)))))) = _
      rw [hsplit]
      rw [stripCurlyGo_cons ' ' _ (by decide)]
      rw [stripCurlyGo_comment body (' ' :: M2) hbody]
      rw [stripCurlyGo_cons ' ' _ (by decide)]
    have horig : stripCurly (M1 ++ (' ' :: M2)) =
        stripCurlyGo false M1 ++ (' ' :: stripCurlyGo false M2) := by
      show stripCurlyGo false (M1 ++ (' ' :: M2)) = _
      rw [hsplit]
      rw [stripCurlyGo_cons ' ' _ (by decide)]
    have hkey := tok_dil [' '] (Or.inl rfl) (by decide) (by decide)
      (stripCurlyGo false M1) (stripCurlyGo false M2)
    simp only [List.singleton_append] at hkey
    simp only [parse_moves, stripSemicolon]
    rw [hins, horig, hkey]
  · subst hSdef
    have hchar : ∀ (t : Char), ¬(t = '$') → ¬(isDigitChar t = true) →
        ∀ c ∈ '$' :: ds, ¬(c = t) := by
      intro t ht hdig c hcm he
      rcases List.mem_cons.mp hcm with h | h
      · rw [he] at h
        exact ht h
      · rw [he] at h
        exact hdig (hds t h)
    rcases curly_dil ('$' :: ds) (hchar '{' (by decide) (by decide))
        (hchar '}' (by decide) (by decide)) M1 false M2 with
      he | ⟨P, z, c1, c2⟩
    · simp only [parse_moves, stripCurly]
      rw [he]
    · simp only [parse_moves, stripCurly, stripSemicolon]
      rw [c1, c2]
      rw [tok_dil ('$' :: ds) (Or.inr ⟨ds, rfl, hne, hds⟩)
        (hchar ';' (by decide) (by decide))
        (hchar '\n' (by decide) (by decide)) P z]

/-- A list equal to its trim drops no leading and no trailing whitespace. -/
lemma trim_parts (l : Str) (h : trimStr l = l) :
    l.dropWhile isWs = l ∧ l.reverse.dropWhile isWs = l.reverse := by
  unfold trimStr at h
  have len1 : (l.dropWhile isWs).length ≤ l.length :=
    (List.dropWhile_sublist isWs).length_le
  have len2 : ((l.dropWhile isWs).reverse.dropWhile isWs).length ≤
      (l.dropWhile isWs).reverse.length :=
    (List.dropWhile_sublist isWs).length_le
  have len3 : ((l.dropWhile isWs).reverse.dropWhile isWs).reverse.length =
      l.length := by rw [h]
  rw [List.length_reverse] at len3
  rw [List.length_reverse] at len2
  have hm : (l.dropWhile isWs).length = l.length := by omega
  have hdw : l.dropWhile isWs = l :=
    (List.dropWhile_sublist isWs).eq_of_length hm
  refine ⟨hdw, ?_⟩
  rw [hdw] at h
  have h2 := congrArg List.reverse h
  rw [List.reverse_reverse] at h2
  exact h2

/-- The head of a list that drops no leading whitespace is not whitespace. -/
lemma head_not_ws (l : Str) (h : l.dropWhile isWs = l) :
    ∀ c, l.head? = some c → isWs c = false := by
  intro c hc
  cases l with
  | nil => cases hc
  | cons a rest =>
    have hac : a = c := by simpa using hc
    subst hac
    by_contra hws
    simp only [Bool.not_eq_false] at hws
    rw [List.dropWhile_cons, if_pos hws] at h
    have hle : (rest.dropWhile isWs).length ≤ rest.length :=
      (List.dropWhile_sublist isWs).length_le
    have hlen := congrArg List.length h
    simp only [List.length_cons] at hlen
    omega

/-- A list whose head is not whitespace drops nothing. -/
lemma dropWhile_id_of_head (l : Str)
    (h : ∀ c, l.head? = some c → isWs c = false) : l.dropWhile isWs = l := by
  cases l with
  | nil => rfl
  | cons a rest =>
    have ha := h a (by simp)
    simp [List.dropWhile_cons, ha]

/-- Trim-stability reassembled from head and last facts. -/
lemma trim_stable (l : Str) (h1 : l.dropWhile isWs = l)
    (h2 : l.reverse.dropWhile isWs = l.reverse) : trimStr l = l := by
  unfold trimStr
  rw [h1, h2, List.reverse_reverse]


/-- C3 (amended): inserting a complete brace comment (body free of `\x7d` and
`\x22`) or a numeric annotation glyph `$n`, wrapped in spaces, between two
moves preserves the whole import result — same success/failure, same moves,
same final FEN — provided the move text carries no `\x22` (the tag regex
would re-anchor on it), does not begin with `]` right after the header
boundary, the input is trim-stable (no leading or trailing whitespace), the
header boundary sits at the end of the header block, and, in the comment
case, no comment opened before the insertion point is left unclosed (the
counterexample shows a tag-shaped comment body breaking the import, and an
unclosed earlier `\x7b` would capture the inserted closer). -/
theorem claim_C3 (H M1 M2 S : Str)
    (hq1 : ¬('"' ∈ M1)) (hq2 : ¬('"' ∈ M2))
    (hhead : M1.head? ≠ some ']')
    (hS : (∃ body, S = '{' :: (body ++ ['}']) ∧
            (∀ c ∈ body, ¬(c = '}') ∧ ¬(c = '"')) ∧ curlyClean M1 = true) ∨
          (∃ ds, S = '$' :: ds ∧ ds ≠ [] ∧ ∀ c ∈ ds, isDigitChar c = true))
    (hbound : tagBoundary (H ++ (M1 ++ (' ' :: M2))) = H.length)
    (htrim : trimStr (H ++ (M1 ++ (' ' :: M2))) = H ++ (M1 ++ (' ' :: M2))) :
    importPgn (H ++ (M1 ++ (' ' :: (S ++ (' ' :: M2))))) =
      importPgn (H ++ (M1 ++ (' ' :: M2))) := by
  have hqS : ¬('"' ∈ S) := by
    rcases hS with ⟨body, hSdef, hbody, _⟩ | ⟨ds, hSdef, _, hds⟩
    · rw [hSdef]
      intro hm
      rcases List.mem_cons.mp hm with h | h
      · exact absurd h (by decide)
      · rcases List.mem_append.mp h with h | h
        · exact (hbody _ h).2 rfl
        · exact absurd (List.mem_singleton.mp h) (by decide)
    · rw [hSdef]
      intro hm
      rcases List.mem_cons.mp hm with h | h
      · exact absurd h (by decide)
      · exact absurd (hds _ h) (by decide)
  set X1 : Str := M1 ++ (' ' :: M2) with hX1
  set X2 : Str := M1 ++ (' ' :: (S ++ (' ' :: M2))) with hX2
  have hq1' : ¬('"' ∈ X1) := by
    rw [hX1]
    intro hm
    rcases List.mem_append.mp hm with h | h
    · exact hq1 h
    · rcases List.mem_cons.mp h with h | h
      · exact absurd h (by decide)
      · exact hq2 h
  have hq2' : ¬('"' ∈ X2) := by
    rw [hX2]
    intro hm
    rcases List.mem_append.mp hm with h | h
    · exact hq1 h
    · rcases List.mem_cons.mp h with h | h
      · exact absurd h (by decide)
      · rcases List.mem_append.mp h with h | h
        · exact hqS h
        · rcases List.mem_cons.mp h with h | h
          · exact absurd h (by decide)
          · exact hq2 h
  have hh1 : X1.head? ≠ some ']' := by
    rw [hX1]
    cases M1 with
    | nil => simp
    | cons a M1' =>
      simp only [List.cons_append, List.head?_cons]
      simpa using hhead
  have hh2 : X2.head? ≠ some ']' := by
    rw [hX2]
    cases M1 with
    | nil => simp
    | cons a M1' =>
      simp only [List.cons_append, List.head?_cons]
      simpa using hhead
  have hm1 : tagMatches (H ++ X1) = tagMatches H :=
    tagMatches_append H X1 hq1' hh1
  have hm2 : tagMatches (H ++ X2) = tagMatches H :=
    tagMatches_append H X2 hq2' hh2
  have hb2 : tagBoundary (H ++ X2) = H.length := by
    unfold tagBoundary at hbound ⊢
    rw [hm2, ← hm1]
    exact hbound
  have hne1 : H ++ X1 ≠ [] := by
    intro hcon
    have h2 := (List.append_eq_nil.mp hcon).2
    rw [hX1] at h2
    have h3 := (List.append_eq_nil.mp h2).2
    cases h3
  have hne2 : H ++ X2 ≠ [] := by
    intro hcon
    have h2 := (List.append_eq_nil.mp hcon).2
    rw [hX2] at h2
    have h3 := (List.append_eq_nil.mp h2).2
    cases h3
  have hparts := trim_parts _ htrim
  have hHM1 : H ++ M1 ≠ [] := by
    intro hcon
    have hhd : (H ++ X1).head? = some ' ' := by
      rw [hX1, ← List.append_assoc, hcon]
      rfl
    exact absurd (head_not_ws _ hparts.1 ' ' hhd) (by decide)
  have hM2ne : M2 ≠ [] := by
    intro hcon
    have hlast : (H ++ X1).reverse.head? = some ' ' := by
      rw [hX1, hcon]
      rw [show H ++ (M1 ++ [' ']) = (H ++ M1) ++ [' '] from
        (List.append_assoc H M1 [' ']).symm]
      rw [List.reverse_append]
      rfl
    exact absurd (head_not_ws _ hparts.2 ' ' hlast) (by decide)
  have hhdeq : (H ++ X2).head? = (H ++ X1).head? := by
    rw [hX1, hX2, ← List.append_assoc, ← List.append_assoc]
    rw [List.head?_append_of_ne_nil _ hHM1, List.head?_append_of_ne_nil _ hHM1]
  have hlasteq : (H ++ X2).getLast? = (H ++ X1).getLast? := by
    rw [hX1, hX2]
    rw [show H ++ (M1 ++ (' ' :: (S ++ (' ' :: M2)))) =
        (H ++ (M1 ++ (' ' :: (S ++ [' '])))) ++ M2 by simp]
    rw [show H ++ (M1 ++ (' ' :: M2)) = (H ++ (M1 ++ [' '])) ++ M2 by simp]
    rw [List.getLast?_append_of_ne_nil _ hM2ne,
      List.getLast?_append_of_ne_nil _ hM2ne]
  have htrim2 : trimStr (H ++ X2) = H ++ X2 := by
    apply trim_stable
    · apply dropWhile_id_of_head
      intro c hc
      rw [hhdeq] at hc
      exact head_not_ws _ hparts.1 c hc
    · apply dropWhile_id_of_head
      intro c hc
      rw [List.head?_reverse, hlasteq, ← List.head?_reverse] at hc
      exact head_not_ws _ hparts.2 c hc
  have hph : ∀ (Y : Str), ¬('"' ∈ Y) → Y.head? ≠ some ']' →
      tagBoundary (H ++ Y) = H.length →
      parse_headers (H ++ Y) =
        match foldTags {} (tagMatches H) with
        | .error e => .error e
        | .ok h =>
          if h.white = [] then .error (.MissingHeader "White".toList)
          else if h.black = [] then .error (.MissingHeader "Black".toList)
          else .ok (h, Y) := by
    intro Y hq hh hb
    unfold parse_headers
    rw [tagMatches_append H Y hq hh, hb, List.drop_left]
  have e1 := hph X1 hq1' hh1 hbound
  have e2 := hph X2 hq2' hh2 hb2
  have hmoves : parse_moves X2 = parse_moves X1 := by
    rw [hX1, hX2]
    apply parse_moves_ins
    rcases hS with ⟨body, hSdef, hbody, hclean⟩ | hdollar
    · exact Or.inl ⟨body, hSdef, fun c hc => (hbody c hc).1, hclean⟩
    · exact Or.inr hdollar
  have hpp : parse_pgn (H ++ X2) = parse_pgn (H ++ X1) := by
    simp only [parse_pgn]
    rw [htrim, htrim2, if_neg hne2, if_neg hne1, e1, e2]
    cases hf : foldTags {} (tagMatches H) with
    | error e => rfl
    | ok h =>
      by_cases hw : h.white = []
      · simp [hw]
      · by_cases hbk : h.black = []
        · simp [hw, hbk]
        · simp only [if_neg hw, if_neg hbk]
          simp [hmoves]
  unfold importPgn
  rw [hpp]

/-- C3 witness: both amended branches at concrete inputs — inserting the
comment `\x7ba comment\x7d` or the glyph `$3` between `e4` and `e5` of a
two-move game leaves the import result unchanged. -/
theorem claim_C3_witness :
    (importPgn (c3wH ++ (c3wA ++ (' ' ::
        (('{' :: (c3wBody ++ ['}'])) ++ (' ' :: c3wB))))) =
      importPgn (c3wH ++ (c3wA ++ (' ' :: c3wB)))) ∧
    (importPgn (c3wH ++ (c3wA ++ (' ' ::
        (('$' :: ['3']) ++ (' ' :: c3wB))))) =
      importPgn (c3wH ++ (c3wA ++ (' ' :: c3wB)))) :=
  ⟨claim_C3 c3wH c3wA c3wB ('{' :: (c3wBody ++ ['}'])) (by decide) (by decide)
      (by decide) (Or.inl ⟨c3wBody, rfl, by decide, by decide⟩)
      (by decide) (by decide),
    claim_C3 c3wH c3wA c3wB ('$' :: ['3']) (by decide) (by decide) (by decide)
      (Or.inr ⟨['3'], rfl, by decide, by decide⟩)
      (by decide) (by decide)⟩

/-- C3, counterexample to the claim as stated: the original two-move game
imports fine, but inserting the brace comment `\x7b[C \"D\"]\x7d` between
`e4` and `e5` makes the import fail — the tag-shaped comment body is picked
up by the header scan, the boundary moves past `e4`, and the leftover
`\x7d` token fails SAN parsing. -/
theorem claim_C3_counterexample :
    c3origIn = c3pre ++ "e5".toList ∧
    c3insIn = c3pre ++ "\x7b[C \"D\"]\x7d ".toList ++ "e5".toList ∧
    (importPgn c3origIn).isOk = true ∧
    (parse_pgn c3insIn).map ParsedGame.moves =
      .ok ["\x7d".toList, "e5".toList] ∧
    (importPgn c3insIn).isOk = false := by
  refine ⟨by decide, by decide, by decide, by decide, by decide⟩

end XLMate
